import Mathlib

/-!
# Verification development for the explaindb schema-inference core

This file gives a shallow embedding, in Lean 4, of the core data-shape
inference engine of the explaindb repository (path escaping, BSON-like type
classification, document flattening under resource limits, per-path
aggregation, PII detection and masking, and shape-signature analysis), and
proves or refutes the documented properties of that core.

Modelling conventions:
* JavaScript strings are modelled as Lean `String` (lists of characters);
  the functions of the source that use `String.prototype.split(sep).join(rep)`
  are modelled by an explicit non-overlapping left-to-right replacement.
* JavaScript numbers are modelled by `ℚ`; `Number.isInteger x` becomes
  `x.den = 1`.  (`NaN`/`Infinity` and exponent-notation printing are outside
  the modelled domain.)
* The tagged extended-scalar wrappers produced by the database adapter
  (values carrying a `_bsontype` discriminator) are modelled by a dedicated
  `tagged` constructor holding the discriminator and the wrapper's string
  representation; the adapter union never produces an empty discriminator.
* `localeCompare(undefined, \x7b numeric: true, sensitivity: 'base' \x7d)` is
  modelled as comparison of collation keys: ASCII case-folded characters,
  with maximal digit runs compared by numeric value, digit runs ordering
  before other characters.
-/

namespace ExplainDB

/-! ## Generic string helpers (JavaScript string primitives) -/

/-- JavaScript `s.split(c)` for a single-character separator: splits at every
occurrence of `c`, keeping empty segments (`"a..b" → ["a","","b"]`,
`"" → [""]`). -/
def jsSplit (sep : Char) : List Char → List (List Char)
  | [] => [[]]
  | c :: rest =>
    match jsSplit sep rest with
    | [] => [[]]
    | h :: t => if c = sep then [] :: h :: t else (c :: h) :: t

/-- ASCII case-folding model of JavaScript `toLowerCase()`. -/
def jsLower (l : List Char) : List Char := l.map Char.toLower

/-- Case-insensitive equality of character lists (`a.toLowerCase() === b.toLowerCase()`). -/
def lowerEq (a b : List Char) : Bool := jsLower a = jsLower b

/-- Insertion-order-preserving de-duplication, the iteration order of a
JavaScript `Set` built by successive `add` calls. -/
def jsDedup {α : Type} [DecidableEq α] (l : List α) : List α :=
  l.foldl (fun acc x => if x ∈ acc then acc else acc ++ [x]) []

/-- Add one element to an insertion-ordered set (`Set.prototype.add`). -/
def setAdd {α : Type} [DecidableEq α] (acc : List α) (x : α) : List α :=
  if x ∈ acc then acc else acc ++ [x]

/-- Boolean prefix test on character lists. -/
def isPre : List Char → List Char → Bool
  | [], _ => true
  | _ :: _, [] => false
  | a :: as, b :: bs => a = b && isPre as bs

/-- JavaScript `s.split(sep).join(rep)`: replace every non-overlapping
occurrence of `sep` in `s` by `rep`, scanning left to right.  (The source
never calls it with an empty separator.) -/
def replaceAll (sep rep : List Char) : List Char → List Char
  | [] => []
  | c :: rest =>
    if h : sep ≠ [] ∧ isPre sep (c :: rest) then
      rep ++ replaceAll sep rep ((c :: rest).drop sep.length)
    else
      c :: replaceAll sep rep rest
termination_by l => l.length
decreasing_by
  · obtain ⟨hne, hpre⟩ := h
    have hlen : 1 ≤ sep.length := by
      cases sep with
      | nil => simp at hne
      | cons a as => simp
    simp only [List.length_drop, List.length_cons]
    omega
  · simp

/-- Substring test: does `needle` occur contiguously anywhere in `hay`? -/
def containsSub (needle : List Char) : List Char → Bool
  | [] => needle.isEmpty
  | c :: rest => isPre needle (c :: rest) || containsSub needle rest

/-- Case-insensitive substring test (model of a case-insensitive regex
matching anywhere in the string). -/
def containsCI (needle : String) (hay : List Char) : Bool :=
  containsSub (jsLower needle.data) (jsLower hay)

/-- Join a list of character lists with a single separator character. -/
def joinWith (sep : Char) : List (List Char) → List Char
  | [] => []
  | [x] => x
  | x :: y :: rest => x ++ sep :: joinWith sep (y :: rest)

/-! ## BSON type taxonomy (`src/types/bson.ts`) -/

/-- The closed BSON type enum `BsonType`. -/
inductive BsonType where
  | double | string | object | array | binData | undefined | objectId
  | boolean | date | null | regex | dbPointer | javascript | symbol
  | javascriptWithScope | int | timestamp | long | decimal | minKey | maxKey
  deriving DecidableEq, Repr

/-- The string value of each `BsonType` enum member. -/
def bsonName : BsonType → String
  | .double => "double"
  | .string => "string"
  | .object => "object"
  | .array => "array"
  | .binData => "binData"
  | .undefined => "undefined"
  | .objectId => "objectId"
  | .boolean => "boolean"
  | .date => "date"
  | .null => "null"
  | .regex => "regex"
  | .dbPointer => "dbPointer"
  | .javascript => "javascript"
  | .symbol => "symbol"
  | .javascriptWithScope => "javascriptWithScope"
  | .int => "int"
  | .timestamp => "timestamp"
  | .long => "long"
  | .decimal => "decimal"
  | .minKey => "minKey"
  | .maxKey => "maxKey"

/-- The JavaScript values the adapter hands to the core: `null`, `undefined`,
booleans, numbers (`ℚ`), bigints, strings, `Date` (carrying its ISO-8601
string), `RegExp`, arrays, plain objects (insertion-ordered fields), and
tagged extended-scalar wrappers (`_bsontype` discriminator plus the
wrapper's `toString()` representation). -/
inductive JSValue where
  | null
  | undef
  | bool (b : Bool)
  | num (q : ℚ)
  | bigint (n : ℤ)
  | str (s : String)
  | date (iso : String)
  | regex (pattern : String)
  | arr (elems : List JSValue)
  | obj (fields : List (String × JSValue))
  | tagged (tag : String) (repr : String)

/-- The JavaScript test `value !== null` specialised to our value type. -/
def JSValue.isNull : JSValue → Bool
  | .null => true
  | _ => false

/-- `detectBsonType` from `src/types/bson.ts`: maps a JavaScript value to a
BSON type tag.  The numeric branch models
`Number.isInteger(v) && -2147483648 <= v && v <= 2147483647`. -/
def detectBsonType : JSValue → BsonType
  | .null => .null
  | .undef => .undefined
  | .bool _ => .boolean
  | .str _ => .string
  | .num q =>
    if q.den = 1 then
      if -2147483648 ≤ q.num ∧ q.num ≤ 2147483647 then .int else .long
    else .double
  | .bigint _ => .long
  | .arr _ => .array
  | .date _ => .date
  | .regex _ => .regex
  | .tagged tag _ =>
    if tag = "ObjectId" ∨ tag = "ObjectID" then .objectId
    else if tag = "Decimal128" then .decimal
    else if tag = "Timestamp" then .timestamp
    else if tag = "Long" then .long
    else if tag = "Binary" then .binData
    else if tag = "MinKey" then .minKey
    else if tag = "MaxKey" then .maxKey
    else .object
  | .obj _ => .object

/-! ## Path escaping (`src/core/flatten/escaping.ts`) -/

/-- `escapeKey`: escape backslashes first, then dots, then dollar signs
(each step is a global split/join replacement). -/
def escapeKey (key : String) : String :=
  ⟨replaceAll ['$'] ['\\', '$']
    (replaceAll ['.'] ['\\', '.']
      (replaceAll ['\\'] ['\\', '\\'] key.data))⟩

/-- `unescapeKey`: replace escaped backslashes by a `\x00` placeholder, then
unescape dollars and dots, then restore backslashes from the placeholder. -/
def unescapeKey (key : String) : String :=
  ⟨replaceAll ['\x00'] ['\\']
    (replaceAll ['\\', '.'] ['.']
      (replaceAll ['\\', '$'] ['$']
        (replaceAll ['\\', '\\'] ['\x00'] key.data)))⟩

/-- `joinPath(...segments)`: drop empty segments, join with dots. -/
def joinPath (segments : List String) : String :=
  ⟨joinWith '.' ((segments.filter (fun s => s ≠ "")).map String.data)⟩

/-- `formatArrayIndex(i)` → `"[i]"`. -/
def formatArrayIndex (i : Nat) : String := "[" ++ Nat.repr i ++ "]"

/-- `isArrayIndex`: does the segment have the shape `[digits]`? -/
def isArrayIndex (segment : List Char) : Bool :=
  match segment with
  | '[' :: rest =>
    match rest.getLast? with
    | some ']' => let body := rest.dropLast; body ≠ [] && body.all Char.isDigit
    | _ => false
  | _ => false

/-- `normalizeArrayIndex`: any `[i]` becomes the wildcard `[*]`. -/
def normalizeArrayIndex (segment : List Char) : List Char :=
  if isArrayIndex segment then ['[', '*', ']'] else segment

/-! ## Number printing and coercion (JavaScript `toString` / `Number`) -/

/-- Decimal digits of a natural number (fuelled, fuel `n+1` always suffices). -/
def natDigits : Nat → Nat → List Char
  | 0, _ => []
  | fuel + 1, n => if n < 10 then [Nat.digitChar n] else natDigits fuel (n / 10) ++ [Nat.digitChar (n % 10)]

/-- Decimal representation of a natural number. -/
def natRepr (n : Nat) : String := ⟨natDigits (n + 1) n⟩

/-- Decimal representation of an integer. -/
def intRepr (n : ℤ) : String := if n < 0 then "-" ++ natRepr n.natAbs else natRepr n.natAbs

/-- Fractional decimal digits of `x` (with `0 ≤ x < 1`), stopping when the
expansion terminates and cutting off after `fuel` digits. -/
def fracDigits : Nat → ℚ → List Char
  | 0, _ => []
  | fuel + 1, x =>
    if x = 0 then []
    else
      let y := x * 10
      Nat.digitChar y.floor.toNat :: fracDigits fuel (y - y.floor)

/-- Model of JavaScript `Number.prototype.toString()` on the modelled number
domain: integers print in plain decimal, non-integers as
`sign intpart . fracdigits` (the source's numbers are binary floats whose
shortest round-trip printing this reproduces on terminating decimals;
exponent notation for extreme magnitudes is outside the model). -/
def jsNumToString (q : ℚ) : String :=
  if q.den = 1 then intRepr q.num
  else
    let a := |q|
    (if q < 0 then "-" else "") ++ natRepr a.floor.toNat ++ "." ++ ⟨fracDigits 17 (a - a.floor)⟩

/-- JavaScript whitespace (the characters matched by `\s` and trimmed by
`String.prototype.trim`). -/
def isJsSpace (c : Char) : Bool :=
  c = ' ' || c = '\t' || c = '\n' || c = '\x0b' || c = '\x0c' || c = '\r' ||
  c.toNat = 0xa0 || c.toNat = 0x1680 || (0x2000 ≤ c.toNat && c.toNat ≤ 0x200a) ||
  c.toNat = 0x2028 || c.toNat = 0x2029 || c.toNat = 0x202f ||
  c.toNat = 0x205f || c.toNat = 0x3000 || c.toNat = 0xfeff

/-- Numeric value of a list of decimal digit characters. -/
def digitsVal (l : List Char) : Nat :=
  l.foldl (fun a c => a * 10 + (c.toNat - '0'.toNat)) 0

/-- Model of JavaScript `Number(string)` restricted to plain decimal
notation: trimmed empty string is `0`, optional sign, integer digits with an
optional fraction; anything else (hex, exponent, `Infinity`) is outside the
modelled domain and coerces to `NaN` (`none`). -/
def jsParseNumber (s : String) : Option ℚ :=
  let t := (s.data.dropWhile isJsSpace).reverse.dropWhile isJsSpace |>.reverse
  if t = [] then some 0
  else
    let (sign, t2) : ℚ × List Char :=
      match t with
      | '+' :: r => (1, r)
      | '-' :: r => (-1, r)
      | _ => (1, t)
    let ds := t2.takeWhile Char.isDigit
    let rest := t2.dropWhile Char.isDigit
    match rest with
    | [] => if ds = [] then none else some (sign * digitsVal ds)
    | '.' :: fs =>
      if fs.all Char.isDigit ∧ (ds ≠ [] ∨ fs ≠ []) then
        some (sign * ((digitsVal ds : ℚ) + (digitsVal fs : ℚ) / ((10 : ℚ) ^ fs.length)))
      else none
    | _ => none

/-- Model of JavaScript `Number(value)` on the values that can carry a
numeric BSON type: numbers are themselves, bigints their integer value,
tagged wrappers coerce through their string representation
(`ToPrimitive` → `toString`).  Date epoch coercion and array/object
coercion are outside the model (every call site filters to numeric-typed
values first); `none` models `NaN`. -/
def jsToNumber : JSValue → Option ℚ
  | .num q => some q
  | .bigint n => some (n : ℚ)
  | .bool b => some (if b then 1 else 0)
  | .null => some 0
  | .str s => jsParseNumber s
  | .tagged _ r => jsParseNumber r
  | _ => none

/-! ## Flatten data model (`src/types/schema.ts`) -/

/-- A path value extracted during flattening. -/
structure PathValue where
  value : JSValue
  type : BsonType
  docIndex : Nat

/-- Truncation counters for one flatten (or merge) run. -/
structure TruncationCounters where
  depthTruncated : Nat
  keysTruncated : Nat
  arraysTruncated : Nat
  deriving DecidableEq

/-- Numeric field statistics. -/
structure FieldStats where
  min : ℚ
  max : ℚ
  avg : ℚ
  deriving DecidableEq

/-! ## Association-list model of a JavaScript `Map` -/

/-- `Map.prototype.get` (first matching key). -/
def aGet {κ ν : Type} [DecidableEq κ] : List (κ × ν) → κ → Option ν
  | [], _ => none
  | (k', v) :: rest, k => if k' = k then some v else aGet rest k

/-- `Map.prototype.set`: updating an existing key keeps its position,
a new key is appended at the end (JavaScript `Map` insertion order). -/
def aSet {κ ν : Type} [DecidableEq κ] : List (κ × ν) → κ → ν → List (κ × ν)
  | [], k, v => [(k, v)]
  | (k', v') :: rest, k, v =>
    if k' = k then (k, v) :: rest else (k', v') :: aSet rest k v

/-! ## Analyzer (`src/core/infer/analyzer.ts`) -/

/-- `getTypeDistribution`: count values per BSON type, in first-seen order. -/
def getTypeDistribution (values : List PathValue) : List (BsonType × Nat) :=
  values.foldl (fun m pv => aSet m pv.type ((aGet m pv.type).getD 0 + 1)) []

/-- `calculateTypeRatio`: each count divided by the total. -/
def calculateTypeRatio (typeCounts : List (BsonType × Nat)) (total : Nat) :
    List (BsonType × ℚ) :=
  typeCounts.map (fun e => (e.1, (e.2 : ℚ) / (total : ℚ)))

/-- `hasMixedTypes`: more than one type ignoring Null and Undefined. -/
def hasMixedTypes (typeCounts : List (BsonType × Nat)) : Bool :=
  ((typeCounts.map (·.1)).filter
    (fun t => t ≠ BsonType.null ∧ t ≠ BsonType.undefined)).length > 1

/-- `isNumericType`: membership in `[Int, Long, Double, Decimal]`. -/
def isNumericType (t : BsonType) : Bool :=
  [BsonType.int, BsonType.long, BsonType.double, BsonType.decimal].contains t

/-! ## Numeric statistics (`src/core/infer/stats.ts`) -/

/-- `calculateStats`: `{min: 0, max: 0, avg: 0}` on the empty list, otherwise
a single pass tracking minimum and maximum from `values[0]` and summing,
with `avg = sum / length`. -/
def calculateStats (values : List ℚ) : FieldStats :=
  match values with
  | [] => ⟨0, 0, 0⟩
  | v0 :: _ =>
    let mn := values.foldl (fun m v => if v < m then v else m) v0
    let mx := values.foldl (fun m v => if m < v then v else m) v0
    let sum := values.foldl (fun a v => a + v) 0
    ⟨mn, mx, sum / (values.length : ℚ)⟩

/-! ## PII detector (`src/core/redact/detector.ts`)

The anchored value regexes of the source are sequences of character classes
with bounded repetition; they are modelled by `matchItems`, which matches a
list of `(class, min, max)` items against the whole string with full
backtracking semantics (a `none` maximum is unbounded, i.e. `+`/`{2,}`). -/

/-- Match a sequence of character-class repetitions against the whole input,
trying every admissible repetition count (regex backtracking semantics). -/
def matchItems : List ((Char → Bool) × Nat × Option Nat) → List Char → Bool
  | [], cs => cs.isEmpty
  | (p, lo, hi) :: rest, cs =>
    let maxK := match hi with
      | some h => min h cs.length
      | none => cs.length
    (List.range (maxK + 1)).any fun k =>
      decide (lo ≤ k) && (cs.take k).all p && matchItems rest (cs.drop k)

/-- A single literal character, as a match item. -/
def lit (c : Char) : (Char → Bool) × Nat × Option Nat := (fun x => x = c, 1, some 1)

/-- ASCII hexadecimal digit. -/
def isHex (c : Char) : Bool :=
  c.isDigit || ('a' ≤ c && c ≤ 'f') || ('A' ≤ c && c ≤ 'F')

/-- Base64url character class `[a-zA-Z0-9_-]`. -/
def isB64 (c : Char) : Bool := c.isAlphanum || c = '_' || c = '-'

/-- `/^[a-zA-Z0-9._%+-]+@[a-zA-Z0-9.-]+\.[a-zA-Z]\x7b2,\x7d$/` (email). -/
def emailValue : List Char → Bool :=
  matchItems
    [(fun c => c.isAlphanum || c = '.' || c = '_' || c = '%' || c = '+' || c = '-', 1, none),
     lit '@',
     (fun c => c.isAlphanum || c = '.' || c = '-', 1, none),
     lit '.',
     (Char.isAlpha, 2, none)]

/-- `[-.\s]` separator class of the phone regex. -/
def phoneSep (c : Char) : Bool := c = '-' || c = '.' || isJsSpace c

/-- `/^\+?\d\x7b1,4\x7d[-.\s]?\(?\d\x7b1,3\x7d\)?[-.\s]?\d\x7b1,4\x7d[-.\s]?\d\x7b1,9\x7d$/` (phone). -/
def phoneValue : List Char → Bool :=
  matchItems
    [(fun c => c = '+', 0, some 1), (Char.isDigit, 1, some 4), (phoneSep, 0, some 1),
     (fun c => c = '(', 0, some 1), (Char.isDigit, 1, some 3), (fun c => c = ')', 0, some 1),
     (phoneSep, 0, some 1), (Char.isDigit, 1, some 4), (phoneSep, 0, some 1),
     (Char.isDigit, 1, some 9)]

/-- `/^\d\x7b3\x7d[-]?\d\x7b2\x7d[-]?\d\x7b4\x7d$/` (SSN). -/
def ssnValue : List Char → Bool :=
  matchItems
    [(Char.isDigit, 3, some 3), (fun c => c = '-', 0, some 1),
     (Char.isDigit, 2, some 2), (fun c => c = '-', 0, some 1),
     (Char.isDigit, 4, some 4)]

/-- `[-\s]` separator class of the credit-card regex. -/
def ccSep (c : Char) : Bool := c = '-' || isJsSpace c

/-- `/^\d\x7b4\x7d[-\s]?\d\x7b4\x7d[-\s]?\d\x7b4\x7d[-\s]?\d\x7b4\x7d$/` (credit card). -/
def creditCardValue : List Char → Bool :=
  matchItems
    [(Char.isDigit, 4, some 4), (ccSep, 0, some 1),
     (Char.isDigit, 4, some 4), (ccSep, 0, some 1),
     (Char.isDigit, 4, some 4), (ccSep, 0, some 1),
     (Char.isDigit, 4, some 4)]

/-- `/^eyJ[a-zA-Z0-9_-]+\.eyJ[a-zA-Z0-9_-]+\.[a-zA-Z0-9_-]+$/` (JWT). -/
def jwtValue : List Char → Bool :=
  matchItems
    [lit 'e', lit 'y', lit 'J', (isB64, 1, none), lit '.',
     lit 'e', lit 'y', lit 'J', (isB64, 1, none), lit '.',
     (isB64, 1, none)]

/-- `/^[0-9a-f]\x7b8\x7d-[0-9a-f]\x7b4\x7d-..-[0-9a-f]\x7b12\x7d$/i` (UUID). -/
def uuidValue : List Char → Bool :=
  matchItems
    [(isHex, 8, some 8), lit '-', (isHex, 4, some 4), lit '-', (isHex, 4, some 4),
     lit '-', (isHex, 4, some 4), lit '-', (isHex, 12, some 12)]

/-- The IPv4 octet alternation `25[0-5]|2[0-4]\d|[01]?\d\d?` recognises
exactly the 1–3 digit strings whose value is at most 255. -/
def isOctet (p : List Char) : Bool :=
  p ≠ [] && p.length ≤ 3 && p.all Char.isDigit && digitsVal p ≤ 255

/-- `/^(?:(?:25[0-5]|2[0-4]\d|[01]?\d\d?)\.)\x7b3\x7d(?:...)$/` (IPv4):
exactly four dot-separated octets. -/
def ipv4Value (l : List Char) : Bool :=
  let parts := jsSplit '.' l
  parts.length = 4 && parts.all isOctet

/-- `/^(?:[0-9a-fA-F]\x7b1,4\x7d:)\x7b7\x7d[0-9a-fA-F]\x7b1,4\x7d$/` (IPv6). -/
def ipv6Value : List Char → Bool :=
  matchItems
    ((List.replicate 7 [((isHex, 1, some 4) : (Char → Bool) × Nat × Option Nat), lit ':']).flatten
      ++ [(isHex, 1, some 4)])

/-- `PII_VALUE_PATTERNS`, in source order. -/
def piiValuePatterns : List ((List Char → Bool) × String) :=
  [(emailValue, "email"), (phoneValue, "phone"), (ssnValue, "ssn"),
   (creditCardValue, "credit_card"), (jwtValue, "jwt"), (uuidValue, "uuid"),
   (ipv4Value, "ip_address"), (ipv6Value, "ip_address")]

/-- `PII_FIELD_PATTERNS`, in source order: each case-insensitive unanchored
regex is modelled by the (case-insensitive) substring alternatives it can
match; `/^ci$/i` and `/^di$/i` are whole-string tests. -/
def piiFieldPatterns : List ((List Char → Bool) × String) :=
  [ (containsCI "email", "email"),
    (fun f => containsCI "email" f || containsCI "e-mail" f || containsCI "e_mail" f, "email"),
    (containsCI "phone", "phone"),
    (containsCI "mobile", "phone"),
    (containsCI "tel", "phone"),
    (containsCI "password", "password"),
    (containsCI "passwd", "password"),
    (containsCI "pwd", "password"),
    (containsCI "secret", "secret"),
    (containsCI "token", "token"),
    (fun f => containsCI "apikey" f || containsCI "api-key" f || containsCI "api_key" f, "api_key"),
    (fun f => containsCI "accesskey" f || containsCI "access-key" f || containsCI "access_key" f, "access_key"),
    (containsCI "auth", "auth"),
    (containsCI "ssn", "ssn"),
    (containsCI "serial", "ssn"),
    (fun f => containsCI "socialsecurity" f || containsCI "social-security" f || containsCI "social_security" f, "ssn"),
    (fun f => containsCI "creditcard" f || containsCI "credit-card" f || containsCI "credit_card" f, "credit_card"),
    (fun f => containsCI "cardnumber" f || containsCI "card-number" f || containsCI "card_number" f, "credit_card"),
    (containsCI "cvv", "cvv"),
    (containsCI "cvc", "cvv"),
    (containsCI "address", "address"),
    (fun f => containsCI "birthdate" f || containsCI "birth-date" f || containsCI "birth_date" f, "birthdate"),
    (containsCI "dob", "birthdate"),
    (fun f => containsCI "ipaddress" f || containsCI "ip-address" f || containsCI "ip_address" f, "ip_address"),
    (fun f => lowerEq f "ci".data, "ci"),
    (fun f => lowerEq f "di".data, "di"),
    (containsCI "salt", "salt"),
    (containsCI "name", "name") ]

/-- `PII_PARENT_PATTERNS`: whole-segment case-insensitive matches whose hint
is inherited by every descendant. -/
def piiParentPatterns : List ((List Char → Bool) × String) :=
  [ (fun seg => lowerEq seg "address".data, "address"),
    (fun seg => lowerEq seg "location".data, "location") ]

/-- Does `l` end with `suffix`? -/
def endsWithL (suffix l : List Char) : Bool := isPre suffix.reverse l.reverse

/-- `segment.replace(/\[\*\]$/, '')`: drop one trailing `[*]` marker. -/
def stripStar (seg : List Char) : List Char :=
  if endsWithL ['[', '*', ']'] seg then seg.take (seg.length - 3) else seg

/-- The segment scan of `matchCustomPattern`: at the *first* segment whose
`[*]`-stripped form equals the prefix (case-insensitively), report whether
that segment is non-terminal; otherwise keep scanning. -/
def customLoop (pfx : List Char) : List (List Char) → Bool
  | [] => false
  | seg :: rest => if lowerEq (stripStar seg) pfx then rest ≠ [] else customLoop pfx rest

/-- `matchCustomPattern(path, pattern)`: a `"prefix.*"` pattern matches the
strict descendants of a `prefix` segment; any other pattern requires full
case-insensitive path equality. -/
def matchCustomPattern (path pattern : String) : Bool :=
  if endsWithL ['.', '*'] pattern.data then
    customLoop (pattern.data.take (pattern.data.length - 2)) (jsSplit '.' path.data)
  else lowerEq path.data pattern.data

/-- The hint name of a custom pattern:
`pattern.replace(/\.\*$/, '').split('.').pop() || pattern`. -/
def customHintName (pattern : String) : String :=
  let base :=
    if endsWithL ['.', '*'] pattern.data then pattern.data.take (pattern.data.length - 2)
    else pattern.data
  let last := (jsSplit '.' base).getLastD []
  if last = [] then pattern else ⟨last⟩

/-- `detectPII(path, value, customPatterns)`: union (in insertion order) of
field-name hints on the last segment, inherited parent hints on every
non-array-index segment, custom-pattern hints, and value-shape hints for
string values. -/
def detectPII (path : String) (value : JSValue)
    (customPatterns : Option (List String) := none) : List String :=
  let segs := jsSplit '.' path.data
  let lastSeg := segs.getLastD []
  let fieldName := if lastSeg = [] then path.data else lastSeg
  let h1 := piiFieldPatterns.foldl
    (fun acc e => if e.1 fieldName then setAdd acc e.2 else acc) []
  let h2 := segs.foldl
    (fun acc seg =>
      if seg.head? = some '[' then acc
      else piiParentPatterns.foldl
        (fun a e => if e.1 seg then setAdd a e.2 else a) acc)
    h1
  let h3 := match customPatterns with
    | none => h2
    | some ps => ps.foldl
        (fun acc pat =>
          if matchCustomPattern path pat then setAdd acc (customHintName pat) else acc)
        h2
  match value with
  | .str s => piiValuePatterns.foldl
      (fun acc e => if e.1 s.data then setAdd acc e.2 else acc) h3
  | _ => h3

/-- `hasPII`: nonempty hint set. -/
def hasPII (value : JSValue) (path : String)
    (customPatterns : Option (List String) := none) : Bool :=
  (detectPII path value customPatterns).length > 0

/-! ## Masker (`src/core/redact/masker.ts`) -/

/-- Redaction mode. -/
inductive RedactMode where
  | strict
  | balanced
  deriving DecidableEq

/-- A redacted example value. -/
structure RedactedExample where
  value : String
  type : BsonType
  hints : List String

/-- `maskString`: strings of length ≤ 2 are fully masked; `strict` keeps the
first character; `balanced` keeps a length-proportional prefix and suffix;
the interior mask run is capped at 10 characters. -/
def maskString (value : List Char) (mode : RedactMode) : List Char :=
  if value.length ≤ 2 then List.replicate value.length '*'
  else
    match mode with
    | .strict => value.take 1 ++ List.replicate (min (value.length - 1) 10) '*'
    | .balanced =>
      if value.length ≤ 4 then
        value.take 1 ++ List.replicate (value.length - 2) '*' ++ value.drop (value.length - 1)
      else
        let visibleChars := min 3 (value.length / 4)
        let maskedLength := min (value.length - visibleChars * 2) 10
        value.take visibleChars ++ List.replicate maskedLength '*' ++
          value.drop (value.length - visibleChars)

/-- JavaScript `s[0]` in string-concatenation position: the first character,
or the text `undefined` when the string is empty. -/
def charAt0 : List Char → List Char
  | [] => "undefined".data
  | c :: _ => [c]

/-- `maskEmail`: local part keeps its first character, the domain keeps the
first letter of its first label and its final label. -/
def maskEmail (email : List Char) : List Char :=
  match jsSplit '@' email with
  | [] => maskString email .balanced
  | [_] => maskString email .balanced
  | loc :: domain :: _ =>
    if domain = [] then maskString email .balanced
    else
      let maskedLocal := if loc.length > 1 then loc.take 1 ++ "***".data else ['*']
      let domainParts := jsSplit '.' domain
      let maskedDomain :=
        if domainParts.length > 1 then
          charAt0 (domainParts.headD []) ++ "***.".data ++ domainParts.getLastD []
        else maskString domain .balanced
      maskedLocal ++ '@' :: maskedDomain

/-- `maskPhone`: keep the last four digits, mask one star per other digit;
fewer than four digits masks the whole input length. -/
def maskPhone (phone : List Char) : List Char :=
  let digits := phone.filter Char.isDigit
  if digits.length < 4 then List.replicate phone.length '*'
  else List.replicate (digits.length - 4) '*' ++ digits.drop (digits.length - 4)

/-- `maskNumber`: the decimal string is returned unchanged when it has at
most two characters, otherwise its first and last characters are kept and
the interior replaced by stars. -/
def maskNumber (q : ℚ) : String :=
  let str := (jsNumToString q).data
  if str.length ≤ 2 then ⟨str⟩
  else ⟨str.take 1 ++ List.replicate (str.length - 2) '*' ++ str.drop (str.length - 1)⟩

/-- `mask(value, path, options)` (the `options` spread resolves to the
redaction mode, defaulting to `balanced` at call sites): produce the
redacted display string together with the BSON type and PII hints. -/
def mask (value : JSValue) (path : String) (mode : RedactMode := .balanced) :
    RedactedExample :=
  let type := detectBsonType value
  let hints := detectPII path value none
  match value with
  | .null => ⟨"null", type, hints⟩
  | .undef => ⟨"undefined", type, hints⟩
  | .bool b => ⟨if b then "true" else "false", type, hints⟩
  | .num q => ⟨maskNumber q, type, hints⟩
  | .str s =>
    if hints.contains "email" then ⟨⟨maskEmail s.data⟩, type, hints⟩
    else if hints.contains "phone" then ⟨⟨maskPhone s.data⟩, type, hints⟩
    else ⟨⟨maskString s.data mode⟩, type, hints⟩
  | .date iso => ⟨⟨iso.data.map (fun c => if c.isDigit then '*' else c)⟩, type, hints⟩
  | .arr l => ⟨"[Array(" ++ natRepr l.length ++ ")]", type, hints⟩
  | .tagged tag r =>
    -- the wrapper's `toString()` is its nonempty representation, so the
    -- `|| JSON.stringify(obj)` fallback is not taken in the adapter domain
    if tag = "ObjectId" ∨ tag = "ObjectID" then ⟨⟨maskString r.data mode⟩, type, hints⟩
    else ⟨"[" ++ tag ++ "]", type, hints⟩
  | .regex _ =>
    -- a RegExp reaches the generic object branch and exposes no own keys
    ⟨"\x7bObject(0 keys)\x7d", type, hints⟩
  | .obj fields => ⟨"\x7bObject(" ++ natRepr fields.length ++ " keys)\x7d", type, hints⟩
  | .bigint _ => ⟨"[Unknown]", type, hints⟩

/-! ## Flatten limits (`src/core/flatten/limits.ts`) -/

/-- Resolved flatten limits. -/
structure FlattenLimits where
  maxDepth : Nat
  maxKeysPerDoc : Nat
  maxArraySample : Nat
  deriving DecidableEq

/-- `Partial<FlattenLimits>` overrides. -/
structure FlattenOptions where
  maxDepth : Option Nat := none
  maxKeysPerDoc : Option Nat := none
  maxArraySample : Option Nat := none

/-- `createLimits`: defaults `maxDepth 20`, `maxKeysPerDoc 2000`,
`maxArraySample 50`, each overridable. -/
def createLimits (o : FlattenOptions) : FlattenLimits :=
  ⟨o.maxDepth.getD 20, o.maxKeysPerDoc.getD 2000, o.maxArraySample.getD 50⟩

/-! ## Flatten engine (`src/core/infer/stats.ts`, `flatten`) -/

/-- The per-call traversal state of `flatten`: the accumulating path map,
the truncation counters and the shared key counter. -/
structure FState where
  paths : List (String × List PathValue)
  depthTruncated : Nat
  keysTruncated : Nat
  arraysTruncated : Nat
  keyCount : Nat

/-- `addPath`: once the shared key counter has reached the budget the
addition is dropped and counted; otherwise the value is appended to the
path's list and the counter incremented. -/
def addPath (L : FlattenLimits) (docIndex : Nat) (path : String)
    (value : JSValue) (type : BsonType) (st : FState) : FState :=
  if st.keyCount ≥ L.maxKeysPerDoc then
    { st with keysTruncated := st.keysTruncated + 1 }
  else
    { st with
      paths := aSet st.paths path (((aGet st.paths path).getD []) ++ [⟨value, type, docIndex⟩])
      keyCount := st.keyCount + 1 }

mutual

/-- The recursive `traverse` of `flatten`: depth check, key-budget check,
then dispatch on the value's shape exactly as in the source. -/
def traverse (L : FlattenLimits) (docIndex : Nat) (v : JSValue)
    (currentPath : String) (depth : Nat) (st : FState) : FState :=
  if depth > L.maxDepth then
    addPath L docIndex (currentPath ++ ".[TRUNCATED]") .null BsonType.null
      { st with depthTruncated := st.depthTruncated + 1 }
  else if st.keyCount ≥ L.maxKeysPerDoc then
    { st with keysTruncated := st.keysTruncated + 1 }
  else
    let type := detectBsonType v
    match v with
    | .null | .undef | .bool _ | .num _ | .bigint _ | .str _ | .date _ =>
      addPath L docIndex currentPath v type st
    | .regex _ =>
      -- generic-object branch: the value is recorded and a RegExp has no
      -- own enumerable keys, so no recursion happens
      addPath L docIndex currentPath v type st
    | .tagged _ _ =>
      -- `_bsontype` is truthy for the adapter's wrappers: recorded as a leaf
      addPath L docIndex currentPath v type st
    | .arr elems =>
      let st1 := addPath L docIndex currentPath v type st
      let st2 :=
        if elems.length > L.maxArraySample then
          { st1 with arraysTruncated := st1.arraysTruncated + 1 }
        else st1
      let sampleSize := min elems.length L.maxArraySample
      let r := goElems L docIndex elems sampleSize 0 currentPath depth [] st2
      if r.2 ≠ [] then
        let wildcardPath := joinPath [currentPath, "[*]"]
        r.2.foldl
          (fun s elemType =>
            addPath L docIndex wildcardPath (.str ("[" ++ bsonName elemType ++ "]")) elemType s)
          r.1
      else r.1
    | .obj fields =>
      let st1 := addPath L docIndex currentPath v type st
      goFields L docIndex fields currentPath depth st1

/-- The array-element loop of `traverse`: process up to `rem` leading
elements, tracking the element index and the set of distinct element types
in first-seen order. -/
def goElems (L : FlattenLimits) (docIndex : Nat) (elems : List JSValue)
    (rem : Nat) (i : Nat) (parentPath : String) (depth : Nat)
    (types : List BsonType) (st : FState) : FState × List BsonType :=
  match elems, rem with
  | [], _ => (st, types)
  | _, 0 => (st, types)
  | e :: rest, rem + 1 =>
    let elementType := detectBsonType e
    let types1 := setAdd types elementType
    let elementPath := joinPath [parentPath, formatArrayIndex i]
    let st1 :=
      if elementType = BsonType.object ∧ ¬e.isNull then
        traverse L docIndex e elementPath (depth + 1) st
      else if elementType = BsonType.array then
        traverse L docIndex e elementPath (depth + 1) st
      else addPath L docIndex elementPath e elementType st
    goElems L docIndex rest rem (i + 1) parentPath depth types1 st1

/-- The object-key loop of `traverse` (also used for the root loop of
`flatten` with an empty current path): recurse into every field at
`depth + 1` using the escaped key. -/
def goFields (L : FlattenLimits) (docIndex : Nat)
    (fields : List (String × JSValue)) (currentPath : String) (depth : Nat)
    (st : FState) : FState :=
  match fields with
  | [] => st
  | (key, v) :: rest =>
    let escapedKey := escapeKey key
    let newPath := if currentPath = "" then escapedKey else joinPath [currentPath, escapedKey]
    let st1 := traverse L docIndex v newPath (depth + 1) st
    goFields L docIndex rest currentPath depth st1

end

/-- A flatten result: the path map and the truncation counters. -/
structure FlattenResult where
  paths : List (String × List PathValue)
  truncationCounters : TruncationCounters

/-- `flatten(doc, docIndex, options)`: resolve limits, allocate fresh
traversal state, run the root key loop (each root key at depth 1 under its
escaped name). -/
def flatten (doc : List (String × JSValue)) (docIndex : Nat)
    (options : FlattenOptions := {}) : FlattenResult :=
  let L := createLimits options
  let st := goFields L docIndex doc "" 0 ⟨[], 0, 0, 0, 0⟩
  ⟨st.paths, ⟨st.depthTruncated, st.keysTruncated, st.arraysTruncated⟩⟩

/-- Total number of `PathValue` entries stored in a path map. -/
def totalEntries (m : List (String × List PathValue)) : Nat :=
  (m.map (fun e => e.2.length)).sum

/-! ## Natural-order collation

`localeCompare(undefined, \x7b numeric: true, sensitivity: 'base' \x7d)` is
modelled by comparing collation keys: each string maps to a token list where
a maximal digit run becomes `(0, value)` and any other character becomes
`(1, lowercased code point)`; token lists compare lexicographically. -/

/-- One collation token: `(0, n)` for a digit run of value `n`,
`(1, c)` for a case-folded character code. -/
abbrev CollTok := ℕ × ℕ

/-- Tokenise a string into collation tokens (fuelled; one token consumes at
least one character, so `length + 1` fuel always suffices). -/
def collationKeyAux : Nat → List Char → List CollTok
  | 0, _ => []
  | _, [] => []
  | fuel + 1, c :: rest =>
    if c.isDigit then
      (0, digitsVal ((c :: rest).takeWhile Char.isDigit)) ::
        collationKeyAux fuel ((c :: rest).dropWhile Char.isDigit)
    else (1, c.toLower.toNat) :: collationKeyAux fuel rest

/-- The collation key of a character list. -/
def collationKey (l : List Char) : List CollTok := collationKeyAux (l.length + 1) l

/-- Pointwise comparison of collation tokens. -/
def pairOrd (a b : CollTok) : Ordering :=
  if a.1 < b.1 then .lt else if b.1 < a.1 then .gt
  else if a.2 < b.2 then .lt else if b.2 < a.2 then .gt else .eq

/-- Lexicographic comparison of lists under an element comparison. -/
def lexOrd {α : Type} (cmp : α → α → Ordering) : List α → List α → Ordering
  | [], [] => .eq
  | [], _ :: _ => .lt
  | _ :: _, [] => .gt
  | a :: as, b :: bs =>
    match cmp a b with
    | .eq => lexOrd cmp as bs
    | o => o

/-- The whole-string comparator
`a.localeCompare(b, undefined, \x7b numeric: true, sensitivity: 'base' \x7d)`
used by `aggregateAll`'s output sort. -/
def localeOrd (a b : String) : Ordering :=
  lexOrd pairOrd (collationKey a.data) (collationKey b.data)

/-- The segment-wise comparator of `sortPaths` (`src/utils/sort.ts`):
compare dot-separated segments pairwise with `localeCompare`, breaking ties
by segment count — lexicographic comparison of the segment key lists. -/
def pathOrd (a b : String) : Ordering :=
  lexOrd (lexOrd pairOrd)
    ((jsSplit '.' a.data).map collationKey)
    ((jsSplit '.' b.data).map collationKey)

/-- `sortPaths`: stable sort by the natural path order (JavaScript
`Array.prototype.sort` is stable). -/
def sortPaths (paths : List String) : List String :=
  paths.mergeSort (fun a b => pathOrd a b ≠ Ordering.gt)

/-! ## Aggregator (`src/core/infer/aggregator.ts`) -/

/-- Redaction policy. -/
inductive RedactPolicy where
  | all
  | pii
  | off
  deriving DecidableEq

/-- Aggregation options (`Partial` merging with the defaults is resolved by
the caller, as in the source's spread of `DEFAULT_OPTIONS`). -/
structure AggregateOptions where
  totalDocs : ℤ := 100
  optionalThreshold : ℚ := 95 / 100
  examplesPerType : Nat := 3
  redact : RedactPolicy := .pii
  redactMode : RedactMode := .balanced
  piiPatterns : Option (List String) := none

/-- A field schema. -/
structure FieldSchema where
  path : String
  presentRatio : ℚ
  presentCount : Nat
  absentCount : ℤ
  typeRatio : List (BsonType × ℚ)
  typeCounts : List (BsonType × Nat)
  examples : List RedactedExample
  stats : Option FieldStats
  optional : Bool
  mixedType : Bool
  hints : List String

/-- Join strings with a separator string. -/
def joinSep (sep : String) : List String → String
  | [] => ""
  | [x] => x
  | x :: y :: rest => x ++ sep ++ joinSep sep (y :: rest)

/-- `formatValue`: plain (non-masking) display formatting.  Wrappers other
than `ObjectId` expose (in the adapter domain) just their discriminator key;
raw byte buffers do not occur in the adapter domain, so the hex branch of
the source is vacuous here. -/
def formatValue : JSValue → String
  | .null => "null"
  | .undef => "undefined"
  | .arr l => "[Array(" ++ natRepr l.length ++ ")]"
  | .date iso => iso
  | .tagged tag r => if tag = "ObjectId" then r else "\x7b_bsontype\x7d"
  | .regex _ => "\x7b\x7d"
  | .obj fields =>
    let keys := fields.map (·.1)
    if keys.length = 0 then "\x7b\x7d"
    else if keys.length ≤ 3 then "\x7b" ++ joinSep ", " keys ++ "\x7d"
    else "\x7b" ++ joinSep ", " (keys.take 3) ++ "...\x7d"
  | .bool b => if b then "true" else "false"
  | .num q => jsNumToString q
  | .bigint n => intRepr n
  | .str s => s

/-- The inner example-collection loop: stop after `examplesPerType` examples
of this type, skip examples already seen under their `type:value` key. -/
def collectLoop (opts : AggregateOptions) (path : String) :
    List PathValue → Nat → List String → List RedactedExample →
    List String × List RedactedExample
  | [], _, seen, ex => (seen, ex)
  | pv :: rest, collected, seen, ex =>
    if collected ≥ opts.examplesPerType then (seen, ex)
    else
      let exm :=
        if opts.redact = RedactPolicy.all then mask pv.value path opts.redactMode
        else if opts.redact = RedactPolicy.pii ∧ hasPII pv.value path opts.piiPatterns then
          mask pv.value path opts.redactMode
        else ⟨formatValue pv.value, pv.type, detectPII path pv.value opts.piiPatterns⟩
      let key := bsonName exm.type ++ ":" ++ exm.value
      if seen.contains key then collectLoop opts path rest collected seen ex
      else collectLoop opts path rest (collected + 1) (seen ++ [key]) (ex ++ [exm])

/-- `collectExamples`: group values by type (first-seen order), then collect
up to `examplesPerType` distinct examples per type, deduplicating across all
types by `type:value` key. -/
def collectExamples (values : List PathValue) (path : String)
    (opts : AggregateOptions) : List RedactedExample :=
  let byType := values.foldl
    (fun m pv => aSet m pv.type (((aGet m pv.type).getD []) ++ [pv])) []
  (byType.foldl
    (fun (acc : List String × List RedactedExample) e =>
      collectLoop opts path e.2 0 acc.1 acc.2)
    ([], [])).2

/-- `aggregatePath(path, values, options)`: presence from distinct document
indices, type distribution over raw values, examples, numeric statistics
over the coercible numeric-typed subset, and the hint union. -/
def aggregatePath (path : String) (values : List PathValue)
    (opts : AggregateOptions := {}) : FieldSchema :=
  let presentDocs := (jsDedup (values.map (·.docIndex))).length
  let presentRatio := (presentDocs : ℚ) / (opts.totalDocs : ℚ)
  let absentCount := opts.totalDocs - presentDocs
  let typeCounts := getTypeDistribution values
  let typeRatio := calculateTypeRatio typeCounts values.length
  let mixedType := hasMixedTypes typeCounts
  let opt := decide (presentRatio < opts.optionalThreshold)
  let examples := collectExamples values path opts
  let numericValues := values.filter (fun v => isNumericType v.type)
  let numbers := numericValues.filterMap (fun v => jsToNumber v.value)
  let stats :=
    if numericValues.length > 0 then
      if numbers.length > 0 then some (calculateStats numbers) else none
    else none
  let hints := jsDedup (examples.flatMap (·.hints))
  ⟨path, presentRatio, presentDocs, absentCount, typeRatio, typeCounts,
    examples, stats, opt, mixedType, hints⟩

/-- `aggregateAll(paths, options)`: aggregate every entry except the array
element-type metadata paths (ending exactly in `.[*]`) and truncation
markers (ending in `.[TRUNCATED]`), then sort by path in natural order. -/
def aggregateAll (paths : List (String × List PathValue))
    (opts : AggregateOptions := {}) : List FieldSchema :=
  let schemas := (paths.filter
    (fun e => ¬ endsWithL ".[*]".data e.1.data ∧ ¬ endsWithL ".[TRUNCATED]".data e.1.data)).map
    (fun e => aggregatePath e.1 e.2 opts)
  schemas.mergeSort (fun a b => localeOrd a.path b.path ≠ Ordering.gt)

/-! ## SHA-256 (model of Node's `crypto.createHash('sha256')`, FIPS 180-4) -/

/-- UTF-8 encoding of one character. -/
def utf8Bytes (c : Char) : List Nat :=
  let n := c.toNat
  if n < 0x80 then [n]
  else if n < 0x800 then [0xc0 + n / 0x40, 0x80 + n % 0x40]
  else if n < 0x10000 then
    [0xe0 + n / 0x1000, 0x80 + (n / 0x40) % 0x40, 0x80 + n % 0x40]
  else
    [0xf0 + n / 0x40000, 0x80 + (n / 0x1000) % 0x40, 0x80 + (n / 0x40) % 0x40, 0x80 + n % 0x40]

/-- Big-endian bytes of a number, fixed width. -/
def beBytes : Nat → Nat → List Nat
  | 0, _ => []
  | k + 1, n => beBytes k (n / 256) ++ [n % 256]

/-- 32-bit right rotation. -/
def rotr (n x : Nat) : Nat := ((x >>> n) ||| (x <<< (32 - n))) % 4294967296

/-- SHA-256 round constants. -/
def shaK : List Nat :=
  [1116352408, 1899447441, 3049323471, 3921009573, 961987163,
   1508970993, 2453635748, 2870763221, 3624381080, 310598401,
   607225278, 1426881987, 1925078388, 2162078206, 2614888103,
   3248222580, 3835390401, 4022224774, 264347078, 604807628,
   770255983, 1249150122, 1555081692, 1996064986, 2554220882,
   2821834349, 2952996808, 3210313671, 3336571891, 3584528711,
   113926993, 338241895, 666307205, 773529912, 1294757372,
   1396182291, 1695183700, 1986661051, 2177026350, 2456956037,
   2730485921, 2820302411, 3259730800, 3345764771, 3516065817,
   3600352804, 4094571909, 275423344, 430227734, 506948616,
   659060556, 883997877, 958139571, 1322822218, 1537002063,
   1747873779, 1955562222, 2024104815, 2227730452, 2361852424,
   2428436474, 2756734187, 3204031479, 3329325298]

/-- SHA-256 initial hash value. -/
def shaH0 : List Nat :=
  [1779033703, 3144134277, 1013904242, 2773480762,
   1359893119, 2600822924, 528734635, 1541459225]

/-- Group bytes into big-endian 32-bit words. -/
def toWords : List Nat → List Nat
  | b0 :: b1 :: b2 :: b3 :: rest => (((b0 * 256 + b1) * 256 + b2) * 256 + b3) :: toWords rest
  | _ => []

/-- Message-schedule extension to 64 words. -/
def shaSchedule (w16 : List Nat) : List Nat :=
  (List.range 48).foldl
    (fun w t =>
      let s0 := rotr 7 (w.getD (t + 1) 0) ^^^ rotr 18 (w.getD (t + 1) 0) ^^^ (w.getD (t + 1) 0 >>> 3)
      let s1 := rotr 17 (w.getD (t + 14) 0) ^^^ rotr 19 (w.getD (t + 14) 0) ^^^ (w.getD (t + 14) 0 >>> 10)
      w ++ [(w.getD t 0 + s0 + w.getD (t + 9) 0 + s1) % 4294967296])
    w16

/-- One compression round application over the 64 schedule words. -/
def shaCompress (h : List Nat) (w : List Nat) : List Nat :=
  let init := (h.getD 0 0, h.getD 1 0, h.getD 2 0, h.getD 3 0,
               h.getD 4 0, h.getD 5 0, h.getD 6 0, h.getD 7 0)
  let r := (List.range 64).foldl
    (fun (s : Nat × Nat × Nat × Nat × Nat × Nat × Nat × Nat) i =>
      let (a, b, c, d, e, f, g, hh) := s
      let bigS1 := rotr 6 e ^^^ rotr 11 e ^^^ rotr 25 e
      let ch := (e &&& f) ^^^ ((e ^^^ 0xffffffff) &&& g)
      let t1 := (hh + bigS1 + ch + shaK.getD i 0 + w.getD i 0) % 4294967296
      let bigS0 := rotr 2 a ^^^ rotr 13 a ^^^ rotr 22 a
      let maj := (a &&& b) ^^^ (a &&& c) ^^^ (b &&& c)
      let t2 := (bigS0 + maj) % 4294967296
      ((t1 + t2) % 4294967296, a, b, c, (d + t1) % 4294967296, e, f, g))
    init
  let (a, b, c, d, e, f, g, hh) := r
  [(h.getD 0 0 + a) % 4294967296, (h.getD 1 0 + b) % 4294967296,
   (h.getD 2 0 + c) % 4294967296, (h.getD 3 0 + d) % 4294967296,
   (h.getD 4 0 + e) % 4294967296, (h.getD 5 0 + f) % 4294967296,
   (h.getD 6 0 + g) % 4294967296, (h.getD 7 0 + hh) % 4294967296]

/-- Process the padded message 64-byte block by block (fuelled; one block
consumes 64 bytes, so the byte count is ample fuel). -/
def shaBlocks : Nat → List Nat → List Nat → List Nat
  | 0, h, _ => h
  | fuel + 1, h, m =>
    if m = [] then h
    else shaBlocks fuel (shaCompress h (shaSchedule (toWords (m.take 64)))) (m.drop 64)

/-- Eight lowercase hexadecimal digits of a 32-bit word. -/
def toHex8 (n : Nat) : List Char :=
  (List.range 8).map (fun i => Nat.digitChar ((n >>> (28 - 4 * i)) % 16))

/-- `sha256(input)`: hex digest of the UTF-8 bytes of `input`. -/
def sha256 (s : String) : String :=
  let m := s.data.flatMap utf8Bytes
  let padLen := (64 - ((m.length + 9) % 64)) % 64
  let padded := m ++ [0x80] ++ List.replicate padLen 0 ++ beBytes 8 (8 * m.length)
  ⟨(shaBlocks (padded.length + 1) shaH0 padded).flatMap toHex8⟩

/-! ## Shape signatures (`src/core/variants/signature.ts`) -/

/-- `generateSignature(paths)`: sort the paths naturally, join with `|`,
hash. -/
def generateSignature (paths : List String) : String :=
  sha256 (joinSep "|" (sortPaths paths))

/-! ## Helper lemmas -/

set_option maxRecDepth 100000 in
/-- Sanity anchor for the SHA-256 model: the FIPS 180-4 test vector. -/
theorem sha256_test_vector :
    sha256 "abc" = "ba7816bf8f01cfea414140de5dae2223b00361a396177a9cb410ff61f20015ad" := by
  decide

/-- The one-step minimum update of `calculateStats`. -/
def fmin (m v : ℚ) : ℚ := if v < m then v else m

/-- The one-step maximum update of `calculateStats`. -/
def fmax (m v : ℚ) : ℚ := if m < v then v else m

theorem foldl_fmin_spec (l : List ℚ) : ∀ a : ℚ,
    l.foldl fmin a ≤ a ∧ (l.foldl fmin a = a ∨ l.foldl fmin a ∈ l) ∧
      ∀ x ∈ l, l.foldl fmin a ≤ x := by
  induction l with
  | nil => intro a; simp
  | cons v t ih =>
    intro a
    obtain ⟨h1, h2, h3⟩ := ih (fmin a v)
    have hav : fmin a v ≤ a := by unfold fmin; split <;> linarith
    have havv : fmin a v ≤ v := by unfold fmin; split <;> linarith
    have hcase : fmin a v = v ∨ fmin a v = a := by unfold fmin; split <;> simp
    refine ⟨?_, ?_, ?_⟩
    · rw [List.foldl_cons]; exact le_trans h1 hav
    · rw [List.foldl_cons]
      rcases h2 with h | h
      · rcases hcase with hc | hc
        · right; rw [h, hc]; exact List.mem_cons_self v t
        · left; rw [h, hc]
      · right; exact List.mem_cons_of_mem v h
    · intro x hx
      rw [List.foldl_cons]
      rcases List.mem_cons.mp hx with rfl | hx
      · exact le_trans h1 havv
      · exact h3 x hx

theorem foldl_fmax_spec (l : List ℚ) : ∀ a : ℚ,
    a ≤ l.foldl fmax a ∧ (l.foldl fmax a = a ∨ l.foldl fmax a ∈ l) ∧
      ∀ x ∈ l, x ≤ l.foldl fmax a := by
  induction l with
  | nil => intro a; simp
  | cons v t ih =>
    intro a
    obtain ⟨h1, h2, h3⟩ := ih (fmax a v)
    have hav : a ≤ fmax a v := by unfold fmax; split <;> linarith
    have havv : v ≤ fmax a v := by unfold fmax; split <;> linarith
    have hcase : fmax a v = v ∨ fmax a v = a := by unfold fmax; split <;> simp
    refine ⟨?_, ?_, ?_⟩
    · rw [List.foldl_cons]; exact le_trans hav h1
    · rw [List.foldl_cons]
      rcases h2 with h | h
      · rcases hcase with hc | hc
        · right; rw [h, hc]; exact List.mem_cons_self v t
        · left; rw [h, hc]
      · right; exact List.mem_cons_of_mem v h
    · intro x hx
      rw [List.foldl_cons]
      rcases List.mem_cons.mp hx with rfl | hx
      · exact le_trans havv h1
      · exact h3 x hx

theorem foldl_add_eq_sum (l : List ℚ) : ∀ a : ℚ, l.foldl (fun s v => s + v) a = a + l.sum := by
  induction l with
  | nil => intro a; simp
  | cons v t ih => intro a; simp [ih, add_assoc]

/-- `jsDedup` builds a duplicate-free list with exactly the elements of the
input (a JavaScript `Set`). -/
theorem jsDedup_nodup_mem {α : Type} [DecidableEq α] (l : List α) :
    (jsDedup l).Nodup ∧ ∀ x, x ∈ jsDedup l ↔ x ∈ l := by
  suffices h : ∀ acc : List α, acc.Nodup →
      (l.foldl (fun acc x => if x ∈ acc then acc else acc ++ [x]) acc).Nodup ∧
        ∀ x, x ∈ l.foldl (fun acc x => if x ∈ acc then acc else acc ++ [x]) acc ↔
          x ∈ acc ∨ x ∈ l by
    obtain ⟨h1, h2⟩ := h [] (by simp)
    exact ⟨h1, fun x => by simpa using h2 x⟩
  induction l with
  | nil => intro acc hacc; simp [hacc]
  | cons v t ih =>
    intro acc hacc
    by_cases hv : v ∈ acc
    · obtain ⟨n1, m1⟩ := ih acc hacc
      refine ⟨by simpa [hv] using n1, fun x => ?_⟩
      simp only [List.foldl_cons, if_pos hv]
      rw [m1 x, List.mem_cons]
      constructor
      · rintro (h | h)
        · exact Or.inl h
        · exact Or.inr (Or.inr h)
      · rintro (h | rfl | h)
        · exact Or.inl h
        · exact Or.inl hv
        · exact Or.inr h
    · have hnodup : (acc ++ [v]).Nodup := by
        rw [List.nodup_append]
        refine ⟨hacc, List.nodup_singleton v, ?_⟩
        intro a ha hav
        exact hv ((List.mem_singleton.mp hav) ▸ ha)
      obtain ⟨n1, m1⟩ := ih (acc ++ [v]) hnodup
      refine ⟨by simpa [hv] using n1, fun x => ?_⟩
      simp only [List.foldl_cons, if_neg hv]
      rw [m1 x]
      simp only [List.mem_append, List.mem_singleton, List.mem_cons]
      tauto

/-- The length of `jsDedup l` is the number of distinct elements of `l`. -/
theorem jsDedup_length {α : Type} [DecidableEq α] (l : List α) :
    (jsDedup l).length = l.toFinset.card := by
  obtain ⟨h1, h2⟩ := jsDedup_nodup_mem l
  have : (jsDedup l).toFinset = l.toFinset := by
    ext x
    simp [List.mem_toFinset, h2 x]
  rw [← this, List.toFinset_card_of_nodup h1]

/-! ## Claim C7 -/

/-- C7: `detectBsonType` obeys the numeric rule — every integral number in
the signed 32-bit range classifies as `Int` (so `classify(-2147483648) = Int`),
every integral number outside that range, and every 64-bit integer
representation, classifies as `Long` (so `classify(2147483648) = Long`),
every non-integral number classifies as `Double` (so
`classify(3.14) = Double`), and `classify(null) = Null`. -/
theorem detectBsonType_numeric_rule :
    (∀ q : ℚ, q.den = 1 → -2147483648 ≤ q.num → q.num ≤ 2147483647 →
      detectBsonType (.num q) = BsonType.int) ∧
    (∀ q : ℚ, q.den = 1 → (q.num < -2147483648 ∨ 2147483647 < q.num) →
      detectBsonType (.num q) = BsonType.long) ∧
    (∀ n : ℤ, detectBsonType (.bigint n) = BsonType.long) ∧
    (∀ q : ℚ, q.den ≠ 1 → detectBsonType (.num q) = BsonType.double) ∧
    detectBsonType (.num (-2147483648)) = BsonType.int ∧
    detectBsonType (.num 2147483648) = BsonType.long ∧
    detectBsonType (.num (3.14 : ℚ)) = BsonType.double ∧
    detectBsonType .null = BsonType.null := by
  refine ⟨?_, ?_, fun n => rfl, ?_, ?_, ?_, ?_, rfl⟩
  · intro q hden hlo hhi
    simp [detectBsonType, hden, hlo, hhi]
  · intro q hden hout
    have : ¬(-2147483648 ≤ q.num ∧ q.num ≤ 2147483647) := by omega
    simp [detectBsonType, hden, this]
  · intro q hden
    simp [detectBsonType, hden]
  · decide
  · decide
  · have hden : (3.14 : ℚ).den = 50 := by norm_num [OfScientific.ofScientific]
    simp [detectBsonType, hden]

/-- Witness for C7 at concrete inputs: `42` is integral and in range. -/
theorem detectBsonType_numeric_rule_witness :
    detectBsonType (.num 42) = BsonType.int :=
  detectBsonType_numeric_rule.1 42 (by decide) (by decide) (by decide)

/-! ## Claim C10 -/

/-- C10: `calculateStats []` is `\x7bmin: 0, max: 0, avg: 0\x7d` (no error, no
`NaN`), and on every non-empty list it returns the exact minimum, the exact
maximum, and the exact arithmetic mean of the elements. -/
theorem calculateStats_spec :
    calculateStats [] = ⟨0, 0, 0⟩ ∧
    ∀ l : List ℚ, l ≠ [] →
      (calculateStats l).min ∈ l ∧ (∀ x ∈ l, (calculateStats l).min ≤ x) ∧
      (calculateStats l).max ∈ l ∧ (∀ x ∈ l, x ≤ (calculateStats l).max) ∧
      (calculateStats l).avg = l.sum / (l.length : ℚ) := by
  refine ⟨rfl, ?_⟩
  intro l hl
  match l, hl with
  | v0 :: t, _ =>
    have hmin := foldl_fmin_spec (v0 :: t) v0
    have hmax := foldl_fmax_spec (v0 :: t) v0
    have hminEq : (calculateStats (v0 :: t)).min = (v0 :: t).foldl fmin v0 := rfl
    have hmaxEq : (calculateStats (v0 :: t)).max = (v0 :: t).foldl fmax v0 := rfl
    have havg : (calculateStats (v0 :: t)).avg
        = (v0 :: t).foldl (fun s v => s + v) 0 / ((v0 :: t).length : ℚ) := rfl
    refine ⟨?_, ?_, ?_, ?_, ?_⟩
    · rw [hminEq]
      rcases hmin.2.1 with h | h
      · rw [h]; exact List.mem_cons_self v0 t
      · exact h
    · intro x hx; rw [hminEq]; exact hmin.2.2 x hx
    · rw [hmaxEq]
      rcases hmax.2.1 with h | h
      · rw [h]; exact List.mem_cons_self v0 t
      · exact h
    · intro x hx; rw [hmaxEq]; exact hmax.2.2 x hx
    · rw [havg, foldl_add_eq_sum, zero_add]

/-- Witness for C10 on the concrete list `[10, 20, 30, 40, 50]`. -/
theorem calculateStats_spec_witness :
    (calculateStats [(10 : ℚ), 20, 30, 40, 50]).min ∈ [(10 : ℚ), 20, 30, 40, 50] ∧
    (∀ x ∈ [(10 : ℚ), 20, 30, 40, 50], (calculateStats [(10 : ℚ), 20, 30, 40, 50]).min ≤ x) ∧
    (calculateStats [(10 : ℚ), 20, 30, 40, 50]).max ∈ [(10 : ℚ), 20, 30, 40, 50] ∧
    (∀ x ∈ [(10 : ℚ), 20, 30, 40, 50], x ≤ (calculateStats [(10 : ℚ), 20, 30, 40, 50]).max) ∧
    (calculateStats [(10 : ℚ), 20, 30, 40, 50]).avg
      = ([(10 : ℚ), 20, 30, 40, 50]).sum / (([(10 : ℚ), 20, 30, 40, 50]).length : ℚ) :=
  calculateStats_spec.2 [(10 : ℚ), 20, 30, 40, 50] (by decide)

/-! ## Claim C3 -/

/-- C3: for every path, every list of `PathValue`s and every option record,
`aggregatePath` returns a `FieldSchema` whose `presentCount` is the number
of distinct `docIndex` values among the path values (not the raw value
count), whose `absentCount` is `totalDocs - presentCount`, and therefore
`presentCount + absentCount = totalDocs`. -/
theorem aggregatePath_presence (path : String) (values : List PathValue)
    (opts : AggregateOptions) :
    (aggregatePath path values opts).presentCount
        = (values.map (fun v => v.docIndex)).toFinset.card ∧
    (aggregatePath path values opts).absentCount
        = opts.totalDocs - ((aggregatePath path values opts).presentCount : ℤ) ∧
    ((aggregatePath path values opts).presentCount : ℤ)
        + (aggregatePath path values opts).absentCount = opts.totalDocs := by
  have hpc : (aggregatePath path values opts).presentCount
      = (jsDedup (values.map (fun v => v.docIndex))).length := rfl
  have hac : (aggregatePath path values opts).absentCount
      = opts.totalDocs - ((jsDedup (values.map (fun v => v.docIndex))).length : ℤ) := rfl
  refine ⟨?_, ?_, ?_⟩
  · rw [hpc, jsDedup_length]
  · rw [hac, hpc]
  · rw [hac, hpc]; ring

/-! ## Claim C1 -/

/-- C1 counterexample: the claim says a numeric value whose decimal string
has at most 2 characters is fully masked with every digit replaced, in both
modes; but `mask(7, "amount")` returns the digit `7` unchanged in both
modes (the source's `maskNumber` returns the string as is when its length
is at most 2). -/
theorem mask_short_number_counterexample :
    (mask (.num 7) "amount" .strict).value = "7" ∧
    (mask (.num 7) "amount" .balanced).value = "7" ∧
    (mask (.num 7) "amount" .strict).value.data.any Char.isDigit = true := by
  refine ⟨?_, ?_, ?_⟩ <;> decide

/-- C1 as amended: for every numeric value whose decimal string
representation has at most 2 characters, `mask` returns that decimal string
unchanged (fully exposed, not masked), in both modes. -/
theorem mask_short_number_unmasked (q : ℚ) (path : String) (mode : RedactMode)
    (h : (jsNumToString q).data.length ≤ 2) :
    (mask (.num q) path mode).value = jsNumToString q := by
  have hval : (mask (.num q) path mode).value = maskNumber q := rfl
  rw [hval]
  unfold maskNumber
  simp only [h, if_pos]

/-- Witness for the amended C1 at the concrete input `7`. -/
theorem mask_short_number_unmasked_witness :
    (jsNumToString 7).data.length ≤ 2 ∧
      (mask (.num 7) "p" .strict).value = jsNumToString 7 :=
  ⟨by decide, mask_short_number_unmasked 7 "p" .strict (by decide)⟩

/-! ## Claim C6 -/

/-- C6 counterexample: the claim says the prefix hint is included *exactly
when* some non-terminal dot-separated segment of the path equals the prefix
case-insensitively; but for the path `kakao[*].id` no segment at all equals
`kakao` case-insensitively, yet the hint is included (the source strips a
trailing `[*]` from each segment before comparing). -/
theorem detectPII_custom_counterexample :
    "kakao" ∈ detectPII "kakao[*].id" .null (some ["kakao.*"]) ∧
    ∀ seg ∈ jsSplit '.' "kakao[*].id".data, lowerEq seg "kakao".data = false := by
  refine ⟨by decide, by decide⟩

theorem isPre_append_self (s : List Char) : ∀ t, isPre s (s ++ t) = true := by
  induction s with
  | nil => intro t; rfl
  | cons c cs ih => intro t; simp [isPre, ih t]

theorem endsWithL_append (suffix l : List Char) : endsWithL suffix (l ++ suffix) = true := by
  unfold endsWithL
  rw [List.reverse_append]
  exact isPre_append_self suffix.reverse l.reverse

/-- The segment scan reports a match exactly when some non-terminal segment,
after stripping a trailing `[*]` marker, equals the prefix
case-insensitively. -/
theorem customLoop_iff (pfx : List Char) (segs : List (List Char)) :
    customLoop pfx segs = true ↔
      ∃ i, i + 1 < segs.length ∧
        lowerEq (stripStar (segs.getD i [])) pfx = true := by
  induction segs with
  | nil => simp [customLoop]
  | cons seg rest ih =>
    by_cases h : lowerEq (stripStar seg) pfx = true
    · simp only [customLoop, if_pos h]
      constructor
      · intro hne
        refine ⟨0, ?_, h⟩
        have : rest ≠ [] := by simpa using hne
        have : 0 < rest.length := List.length_pos.mpr this
        simpa using this
      · rintro ⟨i, hi, _⟩
        have : 0 < rest.length := by simp at hi; omega
        simpa using List.length_pos.mp this
    · simp only [customLoop, if_neg h]
      rw [ih]
      constructor
      · rintro ⟨j, hj, hp⟩
        exact ⟨j + 1, by simpa using Nat.succ_lt_succ hj, hp⟩
      · rintro ⟨i, hi, hp⟩
        match i, hi, hp with
        | 0, hi, hp => exact absurd hp h
        | j + 1, hi, hp =>
          refine ⟨j, ?_, hp⟩
          simp at hi
          omega

/-- C6 as amended: a custom pattern `prefix ++ ".*"` matches a path exactly
when some non-terminal dot-separated segment, after stripping a trailing
`[*]` marker, equals the prefix case-insensitively; consequently the prefix
field itself is excluded and descendants match:
`detectPII("kakao", v, ["kakao.*"])` lacks `kakao` while
`detectPII("kakao.id", v, ["kakao.*"])` contains it. -/
theorem matchCustomPattern_spec :
    (∀ (path pfx : String),
      matchCustomPattern path ⟨pfx.data ++ ['.', '*']⟩ = true ↔
        ∃ i, i + 1 < (jsSplit '.' path.data).length ∧
          lowerEq (stripStar ((jsSplit '.' path.data).getD i [])) pfx.data = true) ∧
    "kakao" ∉ detectPII "kakao" .null (some ["kakao.*"]) ∧
    "kakao" ∈ detectPII "kakao.id" .null (some ["kakao.*"]) := by
  refine ⟨?_, by decide, by decide⟩
  intro path pfx
  have hdata : (String.mk (pfx.data ++ ['.', '*'])).data = pfx.data ++ ['.', '*'] := rfl
  have hends : endsWithL ['.', '*'] (pfx.data ++ ['.', '*']) = true :=
    endsWithL_append ['.', '*'] pfx.data
  have htake : (pfx.data ++ ['.', '*']).take ((pfx.data ++ ['.', '*']).length - 2)
      = pfx.data := by
    have hlen : (pfx.data ++ ['.', '*']).length - 2 = pfx.data.length := by simp
    rw [hlen, List.take_left]
  unfold matchCustomPattern
  rw [hdata, if_pos hends, htake]
  exact customLoop_iff pfx.data (jsSplit '.' path.data)

/-! ## Claim C2

The escape direction maps every character independently (`escChar`); the
four replacement passes of `unescapeKey` are then tracked one stage at a
time through per-character step lemmas. -/

/-- Per-character effect of `escapeKey`. -/
def escChar (c : Char) : List Char :=
  if c = '\\' then ['\\', '\\']
  else if c = '.' then ['\\', '.']
  else if c = '$' then ['\\', '$']
  else [c]

/-- Per-character state after `unescapeKey`'s first pass (`\\` → `\x00`). -/
def unesc1 (c : Char) : List Char :=
  if c = '\\' then ['\x00']
  else if c = '.' then ['\\', '.']
  else if c = '$' then ['\\', '$']
  else [c]

/-- Per-character state after the second pass (`\$` → `$`). -/
def unesc2 (c : Char) : List Char :=
  if c = '\\' then ['\x00']
  else if c = '.' then ['\\', '.']
  else if c = '$' then ['$']
  else [c]

/-- Per-character state after the third pass (`\.` → `.`). -/
def unesc3 (c : Char) : List Char :=
  if c = '\\' then ['\x00'] else [c]

/-- Per-character state after the fourth pass (`\x00` → `\`). -/
def unesc4 (c : Char) : List Char :=
  if c = '\\' then ['\\'] else if c = '\x00' then ['\\'] else [c]

theorem replaceAll_nil (sep rep : List Char) : replaceAll sep rep [] = [] := by
  simp [replaceAll]

/-- A replacement pass commutes with a per-character decomposition whenever
it does on each character block. -/
theorem replaceAll_flatMap {g g' : Char → List Char} {sep rep : List Char}
    (step : ∀ (c : Char) (T : List Char),
      replaceAll sep rep (g c ++ T) = g' c ++ replaceAll sep rep T) :
    ∀ l : List Char, replaceAll sep rep (l.flatMap g) = l.flatMap g' := by
  intro l
  induction l with
  | nil => simp [replaceAll]
  | cons c rest ih =>
    simp only [List.flatMap_cons]
    rw [step c, ih]

theorem escape_step (a : Char) (rep : List Char) :
    ∀ l, replaceAll [a] rep l = l.flatMap (fun c => if c = a then rep else [c]) := by
  intro l
  induction l with
  | nil => simp [replaceAll]
  | cons c rest ih =>
    by_cases hc : c = a
    · subst hc
      rw [replaceAll]
      simp [isPre, ih]
    · rw [replaceAll]
      simp [isPre, Ne.symm hc, hc, ih]

/-- `escapeKey` escapes each character independently. -/
theorem escapeKey_data (s : String) : (escapeKey s).data = s.data.flatMap escChar := by
  show replaceAll ['$'] ['\\', '$']
      (replaceAll ['.'] ['\\', '.'] (replaceAll ['\\'] ['\\', '\\'] s.data))
    = s.data.flatMap escChar
  rw [escape_step, escape_step, escape_step]
  induction s.data with
  | nil => rfl
  | cons c rest ih =>
    simp only [List.flatMap_cons, List.flatMap_append, ih]
    congr 1
    by_cases h1 : c = '\\'
    · subst h1; rfl
    · by_cases h2 : c = '.'
      · subst h2; rfl
      · by_cases h3 : c = '$'
        · subst h3; rfl
        · simp [h1, h2, h3, escChar]

theorem unesc1_step (c : Char) (T : List Char) :
    replaceAll ['\\', '\\'] ['\x00'] (escChar c ++ T)
      = unesc1 c ++ replaceAll ['\\', '\\'] ['\x00'] T := by
  by_cases h1 : c = '\\'
  · subst h1
    show replaceAll ['\\', '\\'] ['\x00'] ('\\' :: '\\' :: T) = _
    rw [replaceAll]
    simp [isPre, unesc1]
  · by_cases h2 : c = '.'
    · subst h2
      show replaceAll ['\\', '\\'] ['\x00'] ('\\' :: '.' :: T) = _
      rw [replaceAll]
      simp only [isPre, List.drop]
      rw [replaceAll]
      simp [isPre, unesc1]
    · by_cases h3 : c = '$'
      · subst h3
        show replaceAll ['\\', '\\'] ['\x00'] ('\\' :: '$' :: T) = _
        rw [replaceAll]
        simp only [isPre, List.drop]
        rw [replaceAll]
        simp [isPre, unesc1]
      · rw [show escChar c = [c] from by simp [escChar, h1, h2, h3],
          List.singleton_append]
        rw [replaceAll]
        simp [isPre, Ne.symm h1, unesc1, h1, h2, h3]

theorem unesc2_step (c : Char) (T : List Char) :
    replaceAll ['\\', '$'] ['$'] (unesc1 c ++ T)
      = unesc2 c ++ replaceAll ['\\', '$'] ['$'] T := by
  by_cases h1 : c = '\\'
  · subst h1
    show replaceAll ['\\', '$'] ['$'] ('\x00' :: T) = _
    rw [replaceAll]
    simp [isPre, unesc2]
  · by_cases h2 : c = '.'
    · subst h2
      show replaceAll ['\\', '$'] ['$'] ('\\' :: '.' :: T) = _
      rw [replaceAll]
      simp only [isPre, List.drop]
      rw [replaceAll]
      simp [isPre, unesc2]
    · by_cases h3 : c = '$'
      · subst h3
        show replaceAll ['\\', '$'] ['$'] ('\\' :: '$' :: T) = _
        rw [replaceAll]
        simp [isPre, unesc2]
      · rw [show unesc1 c = [c] from by simp [unesc1, h1, h2, h3],
          List.singleton_append]
        rw [replaceAll]
        simp [isPre, Ne.symm h1, unesc2, h1, h2, h3]

theorem unesc3_step (c : Char) (T : List Char) :
    replaceAll ['\\', '.'] ['.'] (unesc2 c ++ T)
      = unesc3 c ++ replaceAll ['\\', '.'] ['.'] T := by
  by_cases h1 : c = '\\'
  · subst h1
    show replaceAll ['\\', '.'] ['.'] ('\x00' :: T) = _
    rw [replaceAll]
    simp [isPre, unesc3]
  · by_cases h2 : c = '.'
    · subst h2
      show replaceAll ['\\', '.'] ['.'] ('\\' :: '.' :: T) = _
      rw [replaceAll]
      simp [isPre, unesc3]
    · by_cases h3 : c = '$'
      · subst h3
        show replaceAll ['\\', '.'] ['.'] ('$' :: T) = _
        rw [replaceAll]
        simp [isPre, unesc3]
      · rw [show unesc2 c = [c] from by simp [unesc2, h1, h2, h3],
          List.singleton_append]
        rw [replaceAll]
        simp [isPre, Ne.symm h1, unesc3, h1, h2, h3]

theorem unesc4_step (c : Char) (T : List Char) :
    replaceAll ['\x00'] ['\\'] (unesc3 c ++ T)
      = unesc4 c ++ replaceAll ['\x00'] ['\\'] T := by
  by_cases h1 : c = '\\'
  · subst h1
    show replaceAll ['\x00'] ['\\'] ('\x00' :: T) = _
    rw [replaceAll]
    simp [isPre, unesc4]
  · by_cases h0 : c = '\x00'
    · subst h0
      show replaceAll ['\x00'] ['\\'] ('\x00' :: T) = _
      rw [replaceAll]
      simp [isPre, unesc4]
    · rw [show unesc3 c = [c] from by simp [unesc3, h1], List.singleton_append]
      rw [replaceAll]
      simp [isPre, Ne.symm h0, unesc4, h1, h0]

/-- The whole `unescapeKey ∘ escapeKey` composite acts per character as
`unesc4`. -/
theorem unescape_escape_data (s : String) :
    unescapeKey (escapeKey s) = ⟨s.data.flatMap unesc4⟩ := by
  have h0 : (escapeKey s).data = s.data.flatMap escChar := escapeKey_data s
  have h1 := replaceAll_flatMap unesc1_step s.data
  have h2 := replaceAll_flatMap unesc2_step s.data
  have h3 := replaceAll_flatMap unesc3_step s.data
  have h4 := replaceAll_flatMap unesc4_step s.data
  show String.mk (replaceAll ['\x00'] ['\\']
    (replaceAll ['\\', '.'] ['.']
      (replaceAll ['\\', '$'] ['$']
        (replaceAll ['\\', '\\'] ['\x00'] (escapeKey s).data)))) = _
  rw [h0, h1, h2, h3, h4]

/-- C2 counterexample: the claim quantifies over *every* string, but the
source's `\x00` placeholder collides with a literal `\x00` in the input:
the round trip turns `"\x00"` into `"\\"`. -/
theorem unescape_escape_counterexample :
    unescapeKey (escapeKey "\x00") ≠ "\x00" := by
  rw [unescape_escape_data]
  decide

/-- C2 as amended: `unescapeKey (escapeKey s) = s` for every string `s` that
does not contain the placeholder character `\x00` — in particular for all
strings over `.`, `$` and `\`. -/
theorem flatMap_unesc4_id (l : List Char) (h : '\x00' ∉ l) :
    l.flatMap unesc4 = l := by
  induction l with
  | nil => rfl
  | cons c rest ih =>
    have hc : c ≠ '\x00' := fun hc => h (hc ▸ List.mem_cons_self c rest)
    have hrest : '\x00' ∉ rest := fun hm => h (List.mem_cons_of_mem c hm)
    simp only [List.flatMap_cons, ih hrest]
    by_cases h1 : c = '\\'
    · subst h1; rfl
    · simp [unesc4, h1, hc]

theorem unescape_escape_roundtrip (s : String) (h : '\x00' ∉ s.data) :
    unescapeKey (escapeKey s) = s := by
  rw [unescape_escape_data, flatMap_unesc4_id s.data h]

/-- Witness for the amended C2 on a string containing `.`, `$` and `\`. -/
theorem unescape_escape_roundtrip_witness :
    '\x00' ∉ "a.b$c\\d".data ∧ unescapeKey (escapeKey "a.b$c\\d") = "a.b$c\\d" :=
  ⟨by decide, unescape_escape_roundtrip "a.b$c\\d" (by decide)⟩

/-! ## Claims C4 and C9: the flatten key budget

The shared key counter of one `flatten` call equals, at all times, the
total number of stored `PathValue` entries, and never exceeds
`maxKeysPerDoc`.  `InvK` is that invariant; it is preserved by `addPath`
and hence by the whole traversal. -/

/-- The key-budget invariant of the traversal state. -/
def InvK (L : FlattenLimits) (st : FState) : Prop :=
  totalEntries st.paths = st.keyCount ∧ st.keyCount ≤ L.maxKeysPerDoc

theorem totalEntries_cons (e : String × List PathValue)
    (m : List (String × List PathValue)) :
    totalEntries (e :: m) = e.2.length + totalEntries m := by
  simp [totalEntries]

/-- Appending one value to one path's list grows the entry total by one. -/
theorem totalEntries_aSet (m : List (String × List PathValue)) (k : String)
    (pv : PathValue) :
    totalEntries (aSet m k (((aGet m k).getD []) ++ [pv])) = totalEntries m + 1 := by
  induction m with
  | nil => simp [aSet, aGet, totalEntries]
  | cons e rest ih =>
    obtain ⟨k1, vs⟩ := e
    by_cases hk : k1 = k
    · subst hk
      simp [aSet, aGet, totalEntries]
      omega
    · simp only [aSet, aGet, if_neg hk, totalEntries_cons]
      rw [ih]
      omega

theorem inv_addPath {L : FlattenLimits} {st : FState} (dI : Nat) (p : String)
    (v : JSValue) (t : BsonType) (hst : InvK L st) :
    InvK L (addPath L dI p v t st) := by
  unfold addPath
  by_cases hk : st.keyCount ≥ L.maxKeysPerDoc
  · simp only [if_pos hk]
    exact hst
  · simp only [if_neg hk]
    refine ⟨?_, ?_⟩
    · show totalEntries
        (aSet st.paths p (((aGet st.paths p).getD []) ++ [⟨v, t, dI⟩])) = st.keyCount + 1
      rw [totalEntries_aSet, hst.1]
    · show st.keyCount + 1 ≤ L.maxKeysPerDoc
      omega

theorem inv_foldl_addPath {L : FlattenLimits} (dI : Nat) (p : String)
    (ts : List BsonType) :
    ∀ st : FState, InvK L st →
      InvK L (ts.foldl
        (fun s elemType =>
          addPath L dI p (.str ("[" ++ bsonName elemType ++ "]")) elemType s) st) := by
  induction ts with
  | nil => intro st hst; exact hst
  | cons t rest ih =>
    intro st hst
    exact ih _ (inv_addPath dI p _ t hst)

/-- Unfolding of `traverse` at an array (the definition is structural on the
value, so this is definitional). -/
theorem traverse_arr_eq (L : FlattenLimits) (dI : Nat) (elems : List JSValue)
    (path : String) (depth : Nat) (st : FState) :
    traverse L dI (.arr elems) path depth st =
      (if depth > L.maxDepth then
        addPath L dI (path ++ ".[TRUNCATED]") .null BsonType.null
          { st with depthTruncated := st.depthTruncated + 1 }
      else if st.keyCount ≥ L.maxKeysPerDoc then
        { st with keysTruncated := st.keysTruncated + 1 }
      else
        let st2 :=
          if elems.length > L.maxArraySample then
            { addPath L dI path (.arr elems) (detectBsonType (.arr elems)) st with
              arraysTruncated :=
                (addPath L dI path (.arr elems) (detectBsonType (.arr elems)) st).arraysTruncated + 1 }
          else addPath L dI path (.arr elems) (detectBsonType (.arr elems)) st
        let r := goElems L dI elems (min elems.length L.maxArraySample) 0 path depth [] st2
        if r.2 ≠ [] then
          r.2.foldl
            (fun s elemType =>
              addPath L dI (joinPath [path, "[*]"])
                (.str ("[" ++ bsonName elemType ++ "]")) elemType s)
            r.1
        else r.1) := rfl

/-- Unfolding of `traverse` at an object (definitional). -/
theorem traverse_obj_eq (L : FlattenLimits) (dI : Nat)
    (fields : List (String × JSValue)) (path : String) (depth : Nat) (st : FState) :
    traverse L dI (.obj fields) path depth st =
      (if depth > L.maxDepth then
        addPath L dI (path ++ ".[TRUNCATED]") .null BsonType.null
          { st with depthTruncated := st.depthTruncated + 1 }
      else if st.keyCount ≥ L.maxKeysPerDoc then
        { st with keysTruncated := st.keysTruncated + 1 }
      else
        goFields L dI fields path depth
          (addPath L dI path (.obj fields) (detectBsonType (.obj fields)) st)) := rfl

/-- The two guard branches plus a leaf `addPath`, as one reusable shape. -/
theorem inv_leaf_body {L : FlattenLimits} (dI : Nat) (path : String)
    (depth : Nat) (st : FState) (v : JSValue) (t : BsonType) (hst : InvK L st) :
    InvK L
      (if depth > L.maxDepth then
        addPath L dI (path ++ ".[TRUNCATED]") .null BsonType.null
          { st with depthTruncated := st.depthTruncated + 1 }
      else if st.keyCount ≥ L.maxKeysPerDoc then
        { st with keysTruncated := st.keysTruncated + 1 }
      else addPath L dI path v t st) := by
  split
  · exact inv_addPath dI _ _ _ hst
  · split
    · exact hst
    · exact inv_addPath dI _ _ _ hst

/-- The tail of the array branch: the element loop followed by the optional
wildcard additions preserves the invariant. -/
theorem inv_arr_tail {L : FlattenLimits} (dI : Nat) (path : String)
    (elems : List JSValue) (k i : Nat) (depth : Nat) (ts : List BsonType)
    (S : FState) (hS : InvK L S)
    (hGE : ∀ st : FState, InvK L st →
      InvK L (goElems L dI elems k i path depth ts st).1) :
    InvK L
      (let r := goElems L dI elems k i path depth ts S
       if r.2 ≠ [] then
         r.2.foldl
           (fun s elemType =>
             addPath L dI (joinPath [path, "[*]"])
               (.str ("[" ++ bsonName elemType ++ "]")) elemType s)
           r.1
       else r.1) := by
  have h3 := hGE S hS
  show InvK L
    (if (goElems L dI elems k i path depth ts S).2 ≠ [] then
      (goElems L dI elems k i path depth ts S).2.foldl
        (fun s elemType =>
          addPath L dI (joinPath [path, "[*]"])
            (.str ("[" ++ bsonName elemType ++ "]")) elemType s)
        (goElems L dI elems k i path depth ts S).1
    else (goElems L dI elems k i path depth ts S).1)
  split
  · exact inv_foldl_addPath dI _ _ _ h3
  · exact h3

/-- The key-budget invariant is preserved by the whole mutual traversal
(strong induction on the structural size of the traversed value). -/
theorem inv_traversal (L : FlattenLimits) (dI : Nat) : ∀ n : Nat,
    (∀ v : JSValue, sizeOf v ≤ n → ∀ (path : String) (depth : Nat) (st : FState),
      InvK L st → InvK L (traverse L dI v path depth st)) ∧
    (∀ fs : List (String × JSValue), sizeOf fs ≤ n →
      ∀ (path : String) (depth : Nat) (st : FState),
        InvK L st → InvK L (goFields L dI fs path depth st)) ∧
    (∀ es : List JSValue, sizeOf es ≤ n →
      ∀ (rem i : Nat) (pp : String) (depth : Nat) (ts : List BsonType) (st : FState),
        InvK L st → InvK L (goElems L dI es rem i pp depth ts st).1) := by
  intro n
  induction n using Nat.strong_induction_on with
  | _ n IH =>
    refine ⟨?_, ?_, ?_⟩
    · intro v hv path depth st hst
      cases v with
      | null => exact inv_leaf_body dI path depth st _ _ hst
      | undef => exact inv_leaf_body dI path depth st _ _ hst
      | bool b => exact inv_leaf_body dI path depth st _ _ hst
      | num q => exact inv_leaf_body dI path depth st _ _ hst
      | bigint m => exact inv_leaf_body dI path depth st _ _ hst
      | str s => exact inv_leaf_body dI path depth st _ _ hst
      | date iso => exact inv_leaf_body dI path depth st _ _ hst
      | regex p => exact inv_leaf_body dI path depth st _ _ hst
      | tagged tg r => exact inv_leaf_body dI path depth st _ _ hst
      | arr elems =>
        have hsize : sizeOf elems < n := by
          have hs : sizeOf (JSValue.arr elems) = 1 + sizeOf elems := by
            simp
          omega
        rw [traverse_arr_eq]
        split
        · exact inv_addPath dI _ _ _ hst
        · split
          · exact hst
          · refine inv_arr_tail dI path elems _ 0 depth [] _ ?_ ?_
            · split
              · exact inv_addPath dI _ _ _ hst
              · exact inv_addPath dI _ _ _ hst
            · intro s hs
              exact (IH (sizeOf elems) hsize).2.2 elems (le_refl _)
                (min elems.length L.maxArraySample) 0 path depth [] s hs
      | obj fields =>
        have hsize : sizeOf fields < n := by
          have hs : sizeOf (JSValue.obj fields) = 1 + sizeOf fields := by
            simp
          omega
        rw [traverse_obj_eq]
        split
        · exact inv_addPath dI _ _ _ hst
        · split
          · exact hst
          · exact (IH (sizeOf fields) hsize).2.1 fields (le_refl _) path depth _
              (inv_addPath dI _ _ _ hst)
    · intro fs hfs path depth st hst
      cases fs with
      | nil => exact hst
      | cons e rest =>
        obtain ⟨key, v⟩ := e
        have hv : sizeOf v < n := by
          have hs : sizeOf ((key, v) :: rest) = 1 + (1 + sizeOf key + sizeOf v) + sizeOf rest := by
            simp
          omega
        have hrest : sizeOf rest < n := by
          have hs : sizeOf ((key, v) :: rest) = 1 + (1 + sizeOf key + sizeOf v) + sizeOf rest := by
            simp
          omega
        show InvK L (goFields L dI rest path depth
          (traverse L dI v
            (if path = "" then escapeKey key else joinPath [path, escapeKey key])
            (depth + 1) st))
        exact (IH (sizeOf rest) hrest).2.1 rest (le_refl _) path depth _
          ((IH (sizeOf v) hv).1 v (le_refl _) _ (depth + 1) st hst)
    · intro es hes rem i pp depth ts st hst
      cases es with
      | nil =>
        cases rem with
        | zero => exact hst
        | succ rem => exact hst
      | cons e rest =>
        cases rem with
        | zero => exact hst
        | succ rem =>
          have hv : sizeOf e < n := by
            have hs : sizeOf (e :: rest) = 1 + sizeOf e + sizeOf rest := by
              simp
            omega
          have hrest : sizeOf rest < n := by
            have hs : sizeOf (e :: rest) = 1 + sizeOf e + sizeOf rest := by
              simp
            omega
          show InvK L (goElems L dI rest rem (i + 1) pp depth
            (setAdd ts (detectBsonType e))
            (if detectBsonType e = BsonType.object ∧ ¬e.isNull then
              traverse L dI e (joinPath [pp, formatArrayIndex i]) (depth + 1) st
            else if detectBsonType e = BsonType.array then
              traverse L dI e (joinPath [pp, formatArrayIndex i]) (depth + 1) st
            else addPath L dI (joinPath [pp, formatArrayIndex i]) e (detectBsonType e) st)).1
          have hst1 : InvK L
              (if detectBsonType e = BsonType.object ∧ ¬e.isNull then
                traverse L dI e (joinPath [pp, formatArrayIndex i]) (depth + 1) st
              else if detectBsonType e = BsonType.array then
                traverse L dI e (joinPath [pp, formatArrayIndex i]) (depth + 1) st
              else addPath L dI (joinPath [pp, formatArrayIndex i]) e (detectBsonType e) st) := by
            split
            · exact (IH (sizeOf e) hv).1 e (le_refl _) _ (depth + 1) st hst
            · split
              · exact (IH (sizeOf e) hv).1 e (le_refl _) _ (depth + 1) st hst
              · exact inv_addPath dI _ _ _ hst
          exact (IH (sizeOf rest) hrest).2.2 rest (le_refl _) rem (i + 1) pp depth _ _ hst1

/-- C9: for every document, document index and limit options, the total
number of `PathValue` entries over all paths of the `FlattenResult` is at
most `maxKeysPerDoc`: no path addition — including the synthetic
`[TRUNCATED]` and `[*]` entries — can push the total past the budget. -/
theorem flatten_total_entries_le (doc : List (String × JSValue)) (dI : Nat)
    (opts : FlattenOptions) :
    totalEntries (flatten doc dI opts).paths ≤ (createLimits opts).maxKeysPerDoc := by
  have h := (inv_traversal (createLimits opts) dI (sizeOf doc)).2.1 doc (le_refl _)
    "" 0 ⟨[], 0, 0, 0, 0⟩ ⟨rfl, Nat.zero_le _⟩
  show totalEntries (goFields (createLimits opts) dI doc "" 0 ⟨[], 0, 0, 0, 0⟩).paths
    ≤ (createLimits opts).maxKeysPerDoc
  rw [h.1]
  exact h.2

/-- C4: `flatten(\x7ba: 1, b: "x"\x7d, docIndex, \x7bmaxKeysPerDoc: 1\x7d)` yields
`keysTruncated = 1` and a path map with exactly the single path `a`; and in
general, once the shared key counter has reached `maxKeysPerDoc`, every
further attempted path addition is dropped and counted (the counter is
shared across the whole traversal). -/
theorem flatten_key_budget :
    (∀ dI : Nat,
      (flatten [("a", .num 1), ("b", .str "x")] dI
          ⟨none, some 1, none⟩).truncationCounters.keysTruncated = 1 ∧
      (flatten [("a", .num 1), ("b", .str "x")] dI ⟨none, some 1, none⟩).paths
        = [("a", [⟨.num 1, BsonType.int, dI⟩])]) ∧
    (∀ (L : FlattenLimits) (dI : Nat) (path : String) (v : JSValue)
        (t : BsonType) (st : FState),
      L.maxKeysPerDoc ≤ st.keyCount →
        addPath L dI path v t st = { st with keysTruncated := st.keysTruncated + 1 }) := by
  constructor
  · intro dI
    refine ⟨rfl, ?_⟩
    have h : detectBsonType (.num 1) = BsonType.int := by decide
    have ea : escapeKey "a" = "a" := String.ext (by rw [escapeKey_data]; rfl)
    calc (flatten [("a", .num 1), ("b", .str "x")] dI ⟨none, some 1, none⟩).paths
        = [(escapeKey "a", [⟨.num 1, detectBsonType (.num 1), dI⟩])] := rfl
      _ = [("a", [⟨.num 1, BsonType.int, dI⟩])] := by rw [ea, h]
  · intro L dI path v t st hk
    unfold addPath
    rw [if_pos (by omega : st.keyCount ≥ L.maxKeysPerDoc)]

/-- Witness for C4's budget rule: a state whose counter has reached the
budget of 1 drops and counts the next addition. -/
theorem flatten_key_budget_witness :
    addPath ⟨20, 1, 50⟩ 0 "b" (.str "x") BsonType.string
        ⟨[("a", [⟨.num 1, BsonType.int, 0⟩])], 0, 0, 0, 1⟩
      = ⟨[("a", [⟨.num 1, BsonType.int, 0⟩])], 0, 1, 0, 1⟩ :=
  flatten_key_budget.2 ⟨20, 1, 50⟩ 0 "b" (.str "x") BsonType.string
    ⟨[("a", [⟨.num 1, BsonType.int, 0⟩])], 0, 0, 0, 1⟩ (by decide)

/-! ## Claim C5 -/

/-- C5: `aggregateAll` produces no `FieldSchema` for any path ending in
`.[*]` or `.[TRUNCATED]`, and produces one for every other path of the map
— including descendants of a wildcard segment such as `items.[*]._id`. -/
theorem aggregateAll_path_filter (m : List (String × List PathValue))
    (opts : AggregateOptions) (p : String) :
    (∃ s ∈ aggregateAll m opts, s.path = p) ↔
      ((∃ vs, (p, vs) ∈ m) ∧
        ¬ endsWithL ".[*]".data p.data ∧ ¬ endsWithL ".[TRUNCATED]".data p.data) := by
  unfold aggregateAll
  constructor
  · rintro ⟨s, hs, hp⟩
    rw [List.mem_mergeSort] at hs
    obtain ⟨e, he, hse⟩ := List.mem_map.mp hs
    have hf := List.mem_filter.mp he
    have hpath : s.path = e.1 := by
      rw [← hse]
      rfl
    have hpe : e.1 = p := by rw [← hpath, hp]
    have hcond := of_decide_eq_true hf.2
    refine ⟨⟨e.2, ?_⟩, ?_, ?_⟩
    · rw [← hpe]
      exact hf.1
    · exact hpe ▸ hcond.1
    · exact hpe ▸ hcond.2
  · rintro ⟨⟨vs, hvs⟩, hA, hB⟩
    refine ⟨aggregatePath p vs opts, ?_, rfl⟩
    rw [List.mem_mergeSort]
    exact List.mem_map.mpr
      ⟨(p, vs), List.mem_filter.mpr ⟨hvs, decide_eq_true ⟨hA, hB⟩⟩, rfl⟩

/-! ## Claim C8

The comparator of `sortPaths` is a total preorder but not antisymmetric:
distinct paths can compare equal (case-insensitively equal segments, or
numerically equal digit runs), and the sort is stable, so two permutations
of such a list sort differently and hash differently.  On path lists whose
elements are pairwise inequivalent under the comparator, permutation
invariance holds. -/

theorem pairOrd_eq_iff (a b : CollTok) : pairOrd a b = Ordering.eq ↔ a = b := by
  obtain ⟨a1, a2⟩ := a
  obtain ⟨b1, b2⟩ := b
  unfold pairOrd
  constructor
  · intro h
    split_ifs at h <;>
      first
        | exact absurd h (by decide)
        | (simp only [Prod.mk.injEq] at *; omega)
  · rintro h
    simp only [Prod.mk.injEq] at h
    obtain ⟨rfl, rfl⟩ := h
    simp

theorem pairOrd_gt_iff (a b : CollTok) :
    pairOrd a b = Ordering.gt ↔ pairOrd b a = Ordering.lt := by
  obtain ⟨a1, a2⟩ := a
  obtain ⟨b1, b2⟩ := b
  unfold pairOrd
  split_ifs <;> simp <;> omega

theorem pairOrd_lt_trans {a b c : CollTok} :
    pairOrd a b = Ordering.lt → pairOrd b c = Ordering.lt →
      pairOrd a c = Ordering.lt := by
  obtain ⟨a1, a2⟩ := a
  obtain ⟨b1, b2⟩ := b
  obtain ⟨c1, c2⟩ := c
  unfold pairOrd
  split_ifs <;> simp <;> omega

section LexOrd

variable {α : Type} {cmp : α → α → Ordering}

theorem lexOrd_eq_iff (heq : ∀ a b, cmp a b = Ordering.eq ↔ a = b) :
    ∀ l1 l2 : List α, lexOrd cmp l1 l2 = Ordering.eq ↔ l1 = l2 := by
  intro l1
  induction l1 with
  | nil =>
    intro l2
    cases l2 <;> simp [lexOrd]
  | cons a t1 ih =>
    intro l2
    cases l2 with
    | nil => simp [lexOrd]
    | cons b t2 =>
      simp only [lexOrd]
      cases hab : cmp a b with
      | eq =>
        have hab' : a = b := (heq a b).mp hab
        simp [hab', ih t2]
      | lt =>
        have : a ≠ b := fun h => by
          rw [h] at hab
          rw [(heq b b).mpr rfl] at hab
          exact Ordering.noConfusion hab
        simp [this]
      | gt =>
        have : a ≠ b := fun h => by
          rw [h] at hab
          rw [(heq b b).mpr rfl] at hab
          exact Ordering.noConfusion hab
        simp [this]

theorem lexOrd_gt_iff (hgt : ∀ a b, cmp a b = Ordering.gt ↔ cmp b a = Ordering.lt)
    (heq : ∀ a b, cmp a b = Ordering.eq ↔ a = b) :
    ∀ l1 l2 : List α, lexOrd cmp l1 l2 = Ordering.gt ↔
      lexOrd cmp l2 l1 = Ordering.lt := by
  intro l1
  induction l1 with
  | nil =>
    intro l2
    cases l2 <;> simp [lexOrd]
  | cons a t1 ih =>
    intro l2
    cases l2 with
    | nil => simp [lexOrd]
    | cons b t2 =>
      simp only [lexOrd]
      cases hab : cmp a b with
      | eq =>
        have hba : cmp b a = Ordering.eq := (heq b a).mpr ((heq a b).mp hab).symm
        rw [hba]
        exact ih t2
      | lt =>
        have hba : cmp b a = Ordering.gt := (hgt b a).mpr hab
        rw [hba]
        simp
      | gt =>
        have hba : cmp b a = Ordering.lt := (hgt a b).mp hab
        rw [hba]
        simp

theorem lexOrd_lt_trans
    (heq : ∀ a b, cmp a b = Ordering.eq ↔ a = b)
    (htrans : ∀ a b c, cmp a b = Ordering.lt → cmp b c = Ordering.lt →
      cmp a c = Ordering.lt) :
    ∀ l1 l2 l3 : List α, lexOrd cmp l1 l2 = Ordering.lt →
      lexOrd cmp l2 l3 = Ordering.lt → lexOrd cmp l1 l3 = Ordering.lt := by
  intro l1
  induction l1 with
  | nil =>
    intro l2 l3 h12 h23
    cases l3 with
    | nil =>
      cases l2 with
      | nil => simp [lexOrd] at h12
      | cons b t2 => simp [lexOrd] at h23
    | cons c t3 => simp [lexOrd]
  | cons a t1 ih =>
    intro l2 l3 h12 h23
    cases l2 with
    | nil => simp [lexOrd] at h12
    | cons b t2 =>
      cases l3 with
      | nil => simp [lexOrd] at h23
      | cons c t3 =>
        cases hab : cmp a b with
        | gt => simp [lexOrd, hab] at h12
        | lt =>
          simp only [lexOrd, hab] at h12
          cases hbc : cmp b c with
          | gt => simp [lexOrd, hbc] at h23
          | lt => simp [lexOrd, htrans a b c hab hbc]
          | eq =>
            obtain rfl := (heq b c).mp hbc
            simp [lexOrd, hab]
        | eq =>
          obtain rfl := (heq a b).mp hab
          simp only [lexOrd, hab] at h12
          cases hbc : cmp a c with
          | gt => simp [lexOrd, hbc] at h23
          | lt => simp [lexOrd, hbc]
          | eq =>
            obtain rfl := (heq a c).mp hbc
            simp only [lexOrd, hbc] at h23 ⊢
            exact ih t2 t3 h12 h23

end LexOrd

/-- Equality characterisation for the segment comparator. -/
theorem segOrd_eq_iff (x y : List CollTok) :
    lexOrd pairOrd x y = Ordering.eq ↔ x = y :=
  lexOrd_eq_iff pairOrd_eq_iff x y

theorem segOrd_gt_iff (x y : List CollTok) :
    lexOrd pairOrd x y = Ordering.gt ↔ lexOrd pairOrd y x = Ordering.lt :=
  lexOrd_gt_iff pairOrd_gt_iff pairOrd_eq_iff x y

theorem segOrd_lt_trans {x y z : List CollTok} :
    lexOrd pairOrd x y = Ordering.lt → lexOrd pairOrd y z = Ordering.lt →
      lexOrd pairOrd x z = Ordering.lt :=
  fun h1 h2 =>
    lexOrd_lt_trans pairOrd_eq_iff (fun _ _ _ => pairOrd_lt_trans) x y z h1 h2

/-- The collation key of a path under the segment-wise comparator. -/
def pathKey (s : String) : List (List CollTok) :=
  (jsSplit '.' s.data).map collationKey

theorem pathOrd_eq_key (a b : String) :
    pathOrd a b = lexOrd (lexOrd pairOrd) (pathKey a) (pathKey b) := rfl

theorem pathOrd_eq_imp_key (a b : String) :
    pathOrd a b = Ordering.eq → pathKey a = pathKey b := by
  rw [pathOrd_eq_key]
  exact fun h => (lexOrd_eq_iff segOrd_eq_iff (pathKey a) (pathKey b)).mp h

theorem pathOrd_gt_iff (a b : String) :
    pathOrd a b = Ordering.gt ↔ pathOrd b a = Ordering.lt := by
  rw [pathOrd_eq_key, pathOrd_eq_key]
  exact lexOrd_gt_iff segOrd_gt_iff segOrd_eq_iff (pathKey a) (pathKey b)

/-- `pathOrd`-keys determine the comparison outcome, so the `sortPaths`
comparator is transitive. -/
theorem pathLe_trans {a b c : String}
    (h1 : pathOrd a b ≠ Ordering.gt) (h2 : pathOrd b c ≠ Ordering.gt) :
    pathOrd a c ≠ Ordering.gt := by
  intro hac
  rw [pathOrd_eq_key] at h1 h2 hac
  cases hab : lexOrd (lexOrd pairOrd) (pathKey a) (pathKey b) with
  | gt => exact h1 hab
  | eq =>
    rw [(lexOrd_eq_iff segOrd_eq_iff _ _).mp hab] at hac
    exact h2 hac
  | lt =>
    cases hbc : lexOrd (lexOrd pairOrd) (pathKey b) (pathKey c) with
    | gt => exact h2 hbc
    | eq =>
      rw [← (lexOrd_eq_iff segOrd_eq_iff _ _).mp hbc] at hac
      rw [hac] at hab
      exact Ordering.noConfusion hab
    | lt =>
      have := lexOrd_lt_trans segOrd_eq_iff
        (fun _ _ _ => segOrd_lt_trans) _ _ _ hab hbc
      rw [hac] at this
      exact Ordering.noConfusion this

theorem pathLe_total (a b : String) :
    (pathOrd a b ≠ Ordering.gt) ∨ (pathOrd b a ≠ Ordering.gt) := by
  by_cases h : pathOrd a b = Ordering.gt
  · right
    intro hba
    rw [(pathOrd_gt_iff b a).mp hba] at h
    exact Ordering.noConfusion h
  · left; exact h

/-- Mutually ≤ paths have equal comparison keys. -/
theorem pathOrd_antisymm {a b : String}
    (h1 : pathOrd a b ≠ Ordering.gt) (h2 : pathOrd b a ≠ Ordering.gt) :
    pathOrd a b = Ordering.eq := by
  cases hab : pathOrd a b with
  | eq => rfl
  | gt => exact absurd hab h1
  | lt => exact absurd ((pathOrd_gt_iff b a).mpr hab) h2

/-- Sorted lists that are permutations of each other and whose elements are
pairwise antisymmetric under the (boolean) order coincide. -/
theorem eq_of_perm_of_pairwise {α : Type} {le : α → α → Bool} :
    ∀ {l1 l2 : List α}, l1.Perm l2 →
      l1.Pairwise (le · ·) → l2.Pairwise (le · ·) →
      (∀ a ∈ l1, ∀ b ∈ l1, le a b → le b a → a = b) → l1 = l2 := by
  intro l1
  induction l1 with
  | nil =>
    intro l2 hperm _ _ _
    exact (hperm.nil_eq).symm ▸ rfl
  | cons a t1 ih =>
    intro l2 hperm hp1 hp2 hanti
    cases l2 with
    | nil => exact absurd hperm.symm.nil_eq (by simp)
    | cons b t2 =>
      have hab : a = b := by
        by_cases h : a = b
        · exact h
        · have ha2 : a ∈ b :: t2 := hperm.mem_iff.mp (List.mem_cons_self a t1)
          have hat2 : a ∈ t2 := by
            rcases List.mem_cons.mp ha2 with h' | h'
            · exact absurd h' h
            · exact h'
          have hb1 : b ∈ a :: t1 := hperm.mem_iff.mpr (List.mem_cons_self b t2)
          have hbt1 : b ∈ t1 := by
            rcases List.mem_cons.mp hb1 with h' | h'
            · exact absurd h'.symm h
            · exact h'
          have hle_ab : le a b := (List.pairwise_cons.mp hp1).1 b hbt1
          have hle_ba : le b a := (List.pairwise_cons.mp hp2).1 a hat2
          exact hanti a (List.mem_cons_self a t1) b (List.mem_cons_of_mem a hbt1)
            hle_ab hle_ba
      subst hab
      have htail : t1.Perm t2 := hperm.cons_inv
      have h1 := (List.pairwise_cons.mp hp1).2
      have h2 := (List.pairwise_cons.mp hp2).2
      have hanti' : ∀ x ∈ t1, ∀ y ∈ t1, le x y → le y x → x = y :=
        fun x hx y hy => hanti x (List.mem_cons_of_mem a hx) y (List.mem_cons_of_mem a hy)
      rw [ih htail h1 h2 hanti']

set_option maxRecDepth 100000 in
/-- C8 counterexample: the claim says the signature is invariant under every
permutation of the path list; but the natural comparator is
case-insensitive (`sensitivity: 'base'`) and the sort is stable, so the
case-equivalent distinct paths `a` and `A` keep their input order, and the
two orders hash differently. -/
theorem generateSignature_counterexample :
    generateSignature ["a", "A"] ≠ generateSignature ["A", "a"] := by
  have h1 : sortPaths ["a", "A"] = ["a", "A"] :=
    List.mergeSort_of_sorted (by decide)
  have h2 : sortPaths ["A", "a"] = ["A", "a"] :=
    List.mergeSort_of_sorted (by decide)
  unfold generateSignature
  rw [h1, h2]
  decide

/-- C8 as amended: `generateSignature` is invariant under permutations of
path lists whose elements are pairwise inequivalent under the natural-order
comparator (no two distinct paths comparing equal, e.g. case-insensitively
equal); in particular
`generateSignature ["a","b","c"] = generateSignature ["c","b","a"]`.
The signature depends only on the sorted path list. -/
theorem generateSignature_perm (ps qs : List String)
    (hperm : ps.Perm qs)
    (hinj : ∀ a ∈ ps, ∀ b ∈ ps, pathOrd a b = Ordering.eq → a = b) :
    generateSignature ps = generateSignature qs := by
  suffices h : sortPaths ps = sortPaths qs by
    unfold generateSignature
    rw [h]
  unfold sortPaths
  have hs1 : (ps.mergeSort (fun a b => pathOrd a b ≠ Ordering.gt)).Pairwise
      (fun a b => (pathOrd a b ≠ Ordering.gt : Bool)) := by
    apply List.sorted_mergeSort
    · intro a b c hab hbc
      simpa using pathLe_trans (by simpa using hab) (by simpa using hbc)
    · intro a b
      rcases pathLe_total a b with h | h
      · simp [h]
      · simp [h]
  have hs2 : (qs.mergeSort (fun a b => pathOrd a b ≠ Ordering.gt)).Pairwise
      (fun a b => (pathOrd a b ≠ Ordering.gt : Bool)) := by
    apply List.sorted_mergeSort
    · intro a b c hab hbc
      simpa using pathLe_trans (by simpa using hab) (by simpa using hbc)
    · intro a b
      rcases pathLe_total a b with h | h
      · simp [h]
      · simp [h]
  have hperm' : (ps.mergeSort (fun a b => pathOrd a b ≠ Ordering.gt)).Perm
      (qs.mergeSort (fun a b => pathOrd a b ≠ Ordering.gt)) :=
    ((List.mergeSort_perm ps _).trans hperm).trans (List.mergeSort_perm qs _).symm
  refine eq_of_perm_of_pairwise hperm' hs1 hs2 ?_
  intro a ha b hb hle1 hle2
  have ha' : a ∈ ps := (List.mergeSort_perm ps _).mem_iff.mp ha
  have hb' : b ∈ ps := (List.mergeSort_perm ps _).mem_iff.mp hb
  exact hinj a ha' b hb' (pathOrd_antisymm (by simpa using hle1) (by simpa using hle2))

/-- Witness for the amended C8 at the spec's example
`["a","b","c"]` vs `["c","b","a"]`. -/
theorem generateSignature_perm_witness :
    generateSignature ["a", "b", "c"] = generateSignature ["c", "b", "a"] :=
  generateSignature_perm ["a", "b", "c"] ["c", "b", "a"] (by decide) (by decide)

end ExplainDB
